import Mathlib

/-!
Verification development for a MIR interpreter ("miri", early version).

The definitions below are a shallow embedding of `src/interpreter.rs`
(the interpreter core).  The virtual memory system (`memory.rs`) and the
error type (`error.rs`) are collaborators of that file that are not part
of the interpreter source; where their behaviour is needed it is
modelled from the specification document, and each such definition is
marked `Modelled from the spec:` in its doc comment.

Machine integers (`usize`, `u64`, byte values) are modelled as `Nat`
with explicit `% 2 ^ w` at the points where the code truncates.
Rust `panic!` / `unimplemented!` / failed `assert!` are modelled as a
distinguished failure constructor, separate from the returned
`EvalError` results, so that statements can distinguish "returns an
error" from "panics".
-/

namespace Miri

/-- Modelled from the spec: a pointer is a pair
`(allocation_id, offset_in_bytes)` (spec section 3; the `Pointer` type
lives in the unavailable `memory.rs`). -/
structure Pointer where
  alloc_id : Nat
  offset : Nat
deriving DecidableEq

/-- Models `Pointer::offset(self, i: isize)` from `memory.rs`: pointer
arithmetic adjusts the offset against the same allocation.  A negative
resulting offset cannot occur at any call site modelled here; it is
clamped to `0`. -/
def Pointer.offsetBy (p : Pointer) (i : Int) : Pointer :=
  ⟨p.alloc_id, ((p.offset : Int) + i).toNat⟩

/-- Modelled from the spec: `FieldRepr { offset, size }` (spec section 3;
the type lives in the unavailable `memory.rs`, but its two fields are
used directly by `interpreter.rs`). -/
structure FieldRepr where
  offset : Nat
  size : Nat
deriving DecidableEq

/-- Modelled from the spec: the `Repr` type-layout value (spec section 3;
the type lives in the unavailable `memory.rs`):
`Primitive { size }`,
`Aggregate { discr_size, size, variants }`,
`Array { elem_size, length }`. -/
inductive Repr where
  | Primitive (size : Nat)
  | Aggregate (discr_size : Nat) (size : Nat) (variants : List (List FieldRepr))
  | Array (elem_size : Nat) (length : Nat)

/-- Modelled from the spec: `Repr::size()` from the unavailable
`memory.rs`.  For primitives and aggregates it returns the recorded
size; for arrays, `size([T;N]) = N * size(T)` (spec section 8). -/
def Repr.size : Repr → Nat
  | .Primitive size => size
  | .Aggregate _ size _ => size
  | .Array elem_size length => elem_size * length

/-- The discriminant size recorded in an aggregate layout (`0` for the
other layout forms, which record no discriminant). -/
def Repr.aggDiscrSize : Repr → Nat
  | .Aggregate discr_size _ _ => discr_size
  | _ => 0

/-- The variants recorded in an aggregate layout (`[]` for the other
layout forms). -/
def Repr.aggVariants : Repr → List (List FieldRepr)
  | .Aggregate _ _ variants => variants
  | _ => []

/-- The inner loop of `make_aggregate_repr` (interpreter.rs:698-707),
written as a recursion: starting from the running `size` accumulator it
turns a list of field sizes into `FieldRepr`s whose offset is the value
of the accumulator when the field is reached, and returns the final
accumulator.  `fields_and_size sizes 0` is exactly the loop's
`(fields, size)` result for one variant. -/
def fields_and_size (sizes : List Nat) (size : Nat) : List FieldRepr × Nat :=
  match sizes with
  | [] => ([], size)
  | field_size :: rest =>
    let r := fields_and_size rest (size + field_size)
    (⟨size, field_size⟩ :: r.1, r.2)

/-- The `discr_size` computation of `make_aggregate_repr`
(interpreter.rs:713-719): match on the number of variants. -/
def discr_size_of (n : Nat) : Nat :=
  if n ≤ 1 then 0
  else if n ≤ 1 <<< 8 then 1
  else if n ≤ 1 <<< 16 then 2
  else if n ≤ 1 <<< 32 then 4
  else 8

/-- `Interpreter::make_aggregate_repr` (interpreter.rs:692-726).  The
Rust function receives an iterator of iterators of types and computes
each field's size with `self.ty_size`; here the field sizes are taken
as input (the callers below pass the sizes computed by the layout
functions), since that is all the function uses of the types. -/
def make_aggregate_repr (variant_fields : List (List Nat)) : Repr :=
  let processed := variant_fields.map (fun field_sizes => fields_and_size field_sizes 0)
  let variants := processed.map Prod.fst
  let max_variant_size := processed.foldl (fun acc p => max acc p.2) 0
  let discr_size := discr_size_of variants.length
  Repr.Aggregate discr_size (max_variant_size + discr_size) variants

/-- `syntax::ast::IntTy` as matched by `ty_to_repr`. -/
inductive IntTy where
  | Is | I8 | I16 | I32 | I64
deriving DecidableEq

/-- `syntax::ast::UintTy` as matched by `ty_to_repr`. -/
inductive UintTy where
  | Us | U8 | U16 | U32 | U64
deriving DecidableEq

/-- The fragment of `rustc`'s type grammar consumed by `ty_to_repr`
(interpreter.rs:634-690).  `TyAdt` covers `TyEnum` and `TyStruct`,
which the source handles by one arm over `adt_def.variants` (a struct
is an ADT with one variant); the variants are carried as their field
types with substitutions already applied.  `TyRef` covers `TyRef`,
`TyRawPtr` and `TyBox`, which the source handles by one arm; the
result of the external `is_sized` query is carried as a field.
Types never reached by the interpreter (`ref t => panic!`) are not
modelled. -/
inductive Ty where
  | TyBool
  | TyInt (t : IntTy)
  | TyUint (t : UintTy)
  | TyTuple (fields : List Ty)
  | TyAdt (variants : List (List Ty))
  | TyArray (elem : Ty) (length : Nat)
  | TyRef (pointee_sized : Bool)
  | TyClosure (upvar_tys : List Ty)

mutual
/-- Structural equality on `Ty`, modelling the `Eq`/`Hash`-based lookup
key of the `FnvHashMap<Ty, &Repr>` representation cache.  (`rustc`
types are interned, so equality there is well-defined structural
equality.) -/
def Ty.beq : Ty → Ty → Bool
  | .TyBool, .TyBool => true
  | .TyInt x, .TyInt y => decide (x = y)
  | .TyUint x, .TyUint y => decide (x = y)
  | .TyTuple fs, .TyTuple gs => Ty.beqList fs gs
  | .TyAdt vs, .TyAdt ws => Ty.beqVariants vs ws
  | .TyArray e n, .TyArray f m => Ty.beq e f && decide (n = m)
  | .TyRef x, .TyRef y => decide (x = y)
  | .TyClosure fs, .TyClosure gs => Ty.beqList fs gs
  | _, _ => false

/-- Elementwise `Ty.beq` on lists of types. -/
def Ty.beqList : List Ty → List Ty → Bool
  | [], [] => true
  | t :: ts, u :: us => Ty.beq t u && Ty.beqList ts us
  | _, _ => false

/-- Elementwise `Ty.beqList` on lists of variants. -/
def Ty.beqVariants : List (List Ty) → List (List Ty) → Bool
  | [], [] => true
  | v :: vs, w :: ws => Ty.beqList v w && Ty.beqVariants vs ws
  | _, _ => false
end

/-- Modelled from the spec: `Memory::new()`'s `pointer_size` (the field
lives in the unavailable `memory.rs`); the driver targets a 64-bit
machine, so 8 bytes. -/
def POINTER_SIZE : Nat := 8

mutual
/-- `Interpreter::ty_to_repr` (interpreter.rs:634-690) without the
cache: the layout value computed for a type.  (The cache is modelled
separately below; it only memoises this computation.)
`monomorphize` is the identity here because the modelled type grammar
is already monomorphic. -/
def ty_to_repr : Ty → Repr
  | .TyBool => .Primitive 1
  | .TyInt .Is => .Primitive POINTER_SIZE
  | .TyInt .I8 => .Primitive 1
  | .TyInt .I16 => .Primitive 2
  | .TyInt .I32 => .Primitive 4
  | .TyInt .I64 => .Primitive 8
  | .TyUint .Us => .Primitive POINTER_SIZE
  | .TyUint .U8 => .Primitive 1
  | .TyUint .U16 => .Primitive 2
  | .TyUint .U32 => .Primitive 4
  | .TyUint .U64 => .Primitive 8
  | .TyTuple fields => make_aggregate_repr [ty_sizes fields]
  | .TyAdt variants => make_aggregate_repr (variant_field_sizes variants)
  | .TyArray elem length => .Array (ty_to_repr elem).size length
  | .TyRef pointee_sized =>
      if pointee_sized then .Primitive POINTER_SIZE
      else .Primitive (POINTER_SIZE * 2)
  | .TyClosure upvar_tys => make_aggregate_repr [ty_sizes upvar_tys]

/-- The sizes of a list of field types (the `self.ty_size(ty)` calls
made inside `make_aggregate_repr`'s inner loop). -/
def ty_sizes : List Ty → List Nat
  | [] => []
  | t :: ts => (ty_to_repr t).size :: ty_sizes ts

/-- The per-variant field sizes for an ADT's variants. -/
def variant_field_sizes : List (List Ty) → List (List Nat)
  | [] => []
  | v :: vs => ty_sizes v :: variant_field_sizes vs
end

/-- `Interpreter::ty_size` (interpreter.rs:630-632):
`self.ty_to_repr(ty).size()`. -/
def ty_size (ty : Ty) : Nat := (ty_to_repr ty).size

/-- Modelled from the spec: the error taxonomy of spec section 7 (the
`EvalError` type lives in the unavailable `error.rs`). -/
inductive EvalError where
  | OutOfBounds
  | InvalidBool
  | ReadPointerAsBytes
  | ReadBytesAsPointer
  | DivisionByZero
  | Unimplemented
  | Unsupported
deriving DecidableEq

/-- A failure of an interpreter operation.  `err` models a returned
`Err(EvalError)`; `panicked` models a Rust `panic!` / `unimplemented!` /
failed assertion (which aborts rather than returning a result);
`fuelExhausted` is an artifact of the fuel-indexed embedding of the
source's unbounded main loop and is reachable only by running out of
fuel, never by the embedded code itself. -/
inductive Fail where
  | err (e : EvalError)
  | panicked (msg : String)
  | fuelExhausted
deriving DecidableEq

/-- `EvalResult<T>` with panics adjoined (see `Fail`). -/
abbrev EvalResult (α : Type) := Except Fail α

/-- Modelled from the spec: an allocation is an owned byte buffer plus a
relocation map from byte offsets to target allocation ids
(spec section 3; the type lives in the unavailable `memory.rs`).
Bytes are `Nat`s kept below 256 by every writer. -/
structure Allocation where
  bytes : List Nat
  relocations : List (Nat × Nat)

/-- Modelled from the spec: the memory is a mapping from allocation id
to allocation plus the target pointer size; ids are handed out
consecutively, so a list indexed by id models the map
(spec section 3). -/
structure Memory where
  alloc_map : List Allocation
  pointer_size : Nat

/-- Modelled from the spec: `Memory::new()` (64-bit target). -/
def Memory.new : Memory := ⟨[], POINTER_SIZE⟩

/-- Modelled from the spec: `allocate(n)` returns a pointer to a fresh
zero-initialised allocation of length `n` with no relocations
(spec section 4.1). -/
def Memory.allocate (m : Memory) (size : Nat) : Memory × Pointer :=
  (⟨m.alloc_map ++ [⟨List.replicate size 0, []⟩], m.pointer_size⟩,
   ⟨m.alloc_map.length, 0⟩)

/-- Whether a relocation entry (claiming `pointer_size` bytes from its
offset) overlaps the byte range `[start, start+len)`. -/
def relocOverlaps (ps : Nat) (start len : Nat) (r : Nat × Nat) : Bool :=
  decide (r.1 < start + len) && decide (start < r.1 + ps)

/-- Little-endian decoding of a byte list. -/
def le_decode : List Nat → Nat
  | [] => 0
  | b :: rest => b + 256 * le_decode rest

/-- Little-endian encoding of `v` into `size` bytes (truncating). -/
def le_encode (v : Nat) : Nat → List Nat
  | 0 => []
  | size + 1 => v % 256 :: le_encode (v / 256) size

/-- Modelled from the spec: read `n` raw bytes at `p`; fails
`OutOfBounds` when the range exceeds the allocation (spec sections 4.1
and 7). -/
def Memory.read_bytes (m : Memory) (p : Pointer) (n : Nat) : EvalResult (List Nat) :=
  match m.alloc_map.get? p.alloc_id with
  | none => .error (.err .OutOfBounds)
  | some alloc =>
    if p.offset + n ≤ alloc.bytes.length then
      .ok ((alloc.bytes.drop p.offset).take n)
    else .error (.err .OutOfBounds)

/-- Modelled from the spec: overwrite the bytes at `p` with `bs`,
removing any relocation overlapping the written range (writes of raw
bytes destroy pointer slots; spec section 4.1's disjointness
invariant). -/
def Memory.write_bytes (m : Memory) (p : Pointer) (bs : List Nat) : EvalResult Memory :=
  match m.alloc_map.get? p.alloc_id with
  | none => .error (.err .OutOfBounds)
  | some alloc =>
    if p.offset + bs.length ≤ alloc.bytes.length then
      let bytes := alloc.bytes.take p.offset ++ bs
        ++ alloc.bytes.drop (p.offset + bs.length)
      let relocations := alloc.relocations.filter
        (fun r => !relocOverlaps m.pointer_size p.offset bs.length r)
      .ok ⟨m.alloc_map.set p.alloc_id ⟨bytes, relocations⟩, m.pointer_size⟩
    else .error (.err .OutOfBounds)

/-- Modelled from the spec: `read_uint(p, size)` reads a little-endian
fixed-width unsigned integer; it fails `ReadPointerAsBytes` when any
byte in the range is covered by a relocation (spec sections 4.1
and 8). -/
def Memory.read_uint (m : Memory) (p : Pointer) (size : Nat) : EvalResult Nat :=
  match m.alloc_map.get? p.alloc_id with
  | none => .error (.err .OutOfBounds)
  | some alloc =>
    if alloc.relocations.any (relocOverlaps m.pointer_size p.offset size) then
      .error (.err .ReadPointerAsBytes)
    else
      match m.read_bytes p size with
      | .ok bs => .ok (le_decode bs)
      | .error e => .error e

/-- Modelled from the spec: `write_uint(p, v, size)` stores `v` as
`size` little-endian bytes (truncating to the width, as a fixed-width
store does). -/
def Memory.write_uint (m : Memory) (p : Pointer) (v : Nat) (size : Nat) : EvalResult Memory :=
  m.write_bytes p (le_encode v size)

/-- Modelled from the spec: `read_int` reads a two's-complement signed
integer of the given width. -/
def Memory.read_int (m : Memory) (p : Pointer) (size : Nat) : EvalResult Int :=
  match m.read_uint p size with
  | .ok v =>
    if v < 256 ^ size / 2 then .ok (v : Int)
    else .ok ((v : Int) - (256 ^ size : Nat))
  | .error e => .error e

/-- Modelled from the spec: `read_bool` reads one byte, which must be 0
or 1; anything else fails `InvalidBool` (spec section 4.1). -/
def Memory.read_bool (m : Memory) (p : Pointer) : EvalResult Bool :=
  match m.read_uint p 1 with
  | .ok 0 => .ok false
  | .ok 1 => .ok true
  | .ok _ => .error (.err .InvalidBool)
  | .error e => .error e

/-- Modelled from the spec: `write_bool` stores one byte equal to 0
or 1. -/
def Memory.write_bool (m : Memory) (p : Pointer) (b : Bool) : EvalResult Memory :=
  m.write_bytes p [if b then 1 else 0]

/-- Modelled from the spec: `read_ptr(p)` requires a relocation entry
exactly at `p.offset` (else `ReadBytesAsPointer`) and reconstructs the
pointer from the relocation target and the raw offset bytes
(spec section 4.1). -/
def Memory.read_ptr (m : Memory) (p : Pointer) : EvalResult Pointer :=
  match m.alloc_map.get? p.alloc_id with
  | none => .error (.err .OutOfBounds)
  | some alloc =>
    if p.offset + m.pointer_size ≤ alloc.bytes.length then
      match alloc.relocations.lookup p.offset with
      | some target =>
        .ok ⟨target, le_decode ((alloc.bytes.drop p.offset).take m.pointer_size)⟩
      | none => .error (.err .ReadBytesAsPointer)
    else .error (.err .OutOfBounds)

/-- Modelled from the spec: `write_ptr(p, q)` stores `q.offset` in the
raw bytes and installs a relocation entry at `p.offset` pointing to
`q.alloc_id` (spec section 4.1). -/
def Memory.write_ptr (m : Memory) (p q : Pointer) : EvalResult Memory :=
  match m.write_bytes p (le_encode q.offset m.pointer_size) with
  | .ok m1 =>
    match m1.alloc_map.get? p.alloc_id with
    | some alloc =>
      .ok ⟨m1.alloc_map.set p.alloc_id
            ⟨alloc.bytes, (p.offset, q.alloc_id) :: alloc.relocations⟩,
          m1.pointer_size⟩
    | none => .error (.err .OutOfBounds)
  | .error e => .error e

/-- Modelled from the spec: `copy(src, dst, n)` copies `n` raw bytes
and carries over the relocation entries that lie entirely inside the
source range, with offsets translated (spec section 4.1).  The source
bytes are snapshotted first, so overlapping ranges behave like a
`memmove`. -/
def Memory.copy (m : Memory) (src dst : Pointer) (n : Nat) : EvalResult Memory :=
  match m.read_bytes src n with
  | .error e => .error e
  | .ok bs =>
    match m.alloc_map.get? src.alloc_id with
    | none => .error (.err .OutOfBounds)
    | some src_alloc =>
      let moved := (src_alloc.relocations.filter
          (fun r => decide (src.offset ≤ r.1)
            && decide (r.1 + m.pointer_size ≤ src.offset + n))).map
        (fun r => (dst.offset + (r.1 - src.offset), r.2))
      match m.write_bytes dst bs with
      | .error e => .error e
      | .ok m1 =>
        match m1.alloc_map.get? dst.alloc_id with
        | none => .error (.err .OutOfBounds)
        | some dst_alloc =>
          .ok ⟨m1.alloc_map.set dst.alloc_id
                ⟨dst_alloc.bytes, moved ++ dst_alloc.relocations⟩,
              m1.pointer_size⟩

/-- The lvalue forms used by the interpreter
(`mir::Lvalue`, matched in `eval_lvalue`, interpreter.rs:557-596).
Projections (`Field`, `Downcast`, `Deref`, indexing) are not part of
the fragment modelled here; no claim concerns them. -/
inductive Lvalue where
  | ReturnPointer
  | Arg (i : Nat)
  | Var (i : Nat)
  | Temp (i : Nat)

/-- `rustc::middle::const_eval::ConstVal` as matched by `const_to_ptr`
(interpreter.rs:598-623).  `Integral` carries the `u64` bit pattern
that `int.to_u64_unchecked()` produces; the payloads of the variants
the code never inspects are elided. -/
inductive ConstVal where
  | Float
  | Integral (n : Nat)
  | Str
  | ByteStr
  | Bool (b : Bool)
  | Char
  | Struct
  | Tuple
  | Function
  | Array
  | Repeat
  | Dummy

/-- `mir::Literal` as matched in `eval_operand_and_repr`
(interpreter.rs:532-539): a `Value` literal or any other literal form
(item literals), which the code rejects with a panic. -/
inductive Literal where
  | Value (value : ConstVal)
  | Item

/-- `mir::Operand` (interpreter.rs:528-541). -/
inductive Operand where
  | Consume (lvalue : Lvalue)
  | Constant (ty : Ty) (literal : Literal)

/-- `syntax::abi::Abi` restricted to the cases `eval_terminator`
distinguishes, plus `C` as a representative of the "any other ABI"
arm. -/
inductive Abi where
  | RustIntrinsic
  | Rust
  | RustCall
  | C
deriving DecidableEq

/-- The function-space type parameters of a `Substs`
(`substs.types.get(subst::FnSpace, i)`); the modelled substitutions are
monomorphic and carry no `Self` type. -/
structure Substs where
  fn_types : List Ty

/-- The callee information of a `Call` terminator: the code evaluates
`operand_ty(func)` and matches `ty::TyFnDef(def_id, substs, fn_ty)`;
the resolved triple (with `fn_ty.abi`) is carried directly. -/
structure FnDefTy where
  def_id : Nat
  substs : Substs
  abi : Abi

/-- The rvalue forms modelled here (`mir::Rvalue`, matched in
`eval_assignment`, interpreter.rs:391-514).  The remaining forms
(`BinaryOp`, `UnaryOp`, `Aggregate`, `Cast`) are not needed by any
claim; like the modelled ones they only touch memory, never the call
stacks. -/
inductive Rvalue where
  | Use (operand : Operand)
  | Ref (lvalue : Lvalue)
  | Box (ty : Ty)

/-- A MIR statement: `StatementKind::Assign(lvalue, rvalue)`
(interpreter.rs:128). -/
structure Statement where
  lvalue : Lvalue
  rvalue : Rvalue

/-- `mir::Terminator` as matched by `eval_terminator`
(interpreter.rs:182-308).  Basic blocks are numbered by position. -/
inductive Terminator where
  | Return
  | Goto (target : Nat)
  | If (cond : Operand) (then_target : Nat) (else_target : Nat)
  | SwitchInt (discr : Lvalue) (values : List ConstVal) (targets : List Nat)
  | Switch (discr : Lvalue) (targets : List Nat)
  | Call (func : FnDefTy) (args : List Operand)
      (destination : Option (Lvalue × Nat))
  | Drop (target : Nat)
  | Resume

/-- `mir::BasicBlockData`: statements plus exactly one terminator. -/
structure BasicBlockData where
  statements : List Statement
  terminator : Terminator

/-- `mir::Mir`: the function body shape consumed by the interpreter
(spec section 6): declarations for arguments, variables and
temporaries, the CFG, and `return_ty` (`some ty` for `FnConverging`,
`none` for `FnDiverging`). -/
structure Mir where
  basic_blocks : List BasicBlockData
  arg_decls : List Ty
  var_decls : List Ty
  temp_decls : List Ty
  return_ty : Option Ty

/-- The read-only collaborators of the interpreter: `load_mir`
(the MIR map and metadata store, with the def-id cache elided since it
is semantically transparent) and `tcx.item_name`. -/
structure Ctx where
  mir_map : Nat → Mir
  item_name : Nat → String

/-- `mir::START_BLOCK`. -/
def START_BLOCK : Nat := 0

/-- A stack frame (interpreter.rs:53-74).  `CachedMir`'s
borrowed/owned distinction is a lifetime artifact and is collapsed to
the body itself. -/
structure Frame where
  mir : Mir
  next_block : Nat
  return_ptr : Option Pointer
  locals : List Pointer
  var_offset : Nat
  temp_offset : Nat

/-- The mutable state of the `Interpreter` (interpreter.rs:25-51):
memory, the call stack and the parallel substitution stack.  The top
of each Rust `Vec` stack is modelled as the head of the list. -/
structure InterpState where
  memory : Memory
  stack : List Frame
  substs_stack : List Substs

/-- `TerminatorTarget` (interpreter.rs:83-92). -/
inductive TerminatorTarget where
  | Block (block : Nat)
  | Call
  | Return
deriving DecidableEq

/-- Rust `Vec` indexing (`xs[i]`): panics when out of bounds. -/
def vec_index {α : Type} (xs : List α) (i : Nat) : EvalResult α :=
  match xs.get? i with
  | some x => .ok x
  | none => .error (.panicked "index out of bounds")

/-- `Interpreter::current_frame` (interpreter.rs:728-730): the top
frame; panics when the stack is empty. -/
def current_frame (s : InterpState) : EvalResult Frame :=
  match s.stack with
  | frame :: _ => .ok frame
  | [] => .error (.panicked "no call frames exist")

/-- `self.current_frame_mut().next_block = target`
(interpreter.rs:230): update the top frame in place. -/
def set_next_block (s : InterpState) (target : Nat) : EvalResult InterpState :=
  match s.stack with
  | frame :: rest => .ok { s with stack := { frame with next_block := target } :: rest }
  | [] => .error (.panicked "no call frames exist")

/-- Models `mir.lvalue_ty` (a `rustc` helper) for the lvalue forms used
here: a local's type comes from the corresponding declaration list and
`ReturnPointer` has the function's return type. -/
def lvalue_ty (frame : Frame) (lvalue : Lvalue) : EvalResult Ty :=
  match lvalue with
  | .ReturnPointer =>
    match frame.mir.return_ty with
    | some ty => .ok ty
    | none => .error (.panicked "lvalue_ty of ReturnPointer in a diverging function")
  | .Arg i => vec_index frame.mir.arg_decls i
  | .Var i => vec_index frame.mir.var_decls i
  | .Temp i => vec_index frame.mir.temp_decls i

/-- `Interpreter::lvalue_repr` (interpreter.rs:545-555) for the
non-`Downcast` case: the layout of the lvalue's type. -/
def lvalue_repr (s : InterpState) (lvalue : Lvalue) : EvalResult Repr :=
  match current_frame s with
  | .error e => .error e
  | .ok frame =>
    match lvalue_ty frame lvalue with
    | .ok ty => .ok (ty_to_repr ty)
    | .error e => .error e

/-- `Interpreter::eval_lvalue` (interpreter.rs:557-596) on the modelled
lvalue fragment. -/
def eval_lvalue (s : InterpState) (lvalue : Lvalue) : EvalResult Pointer :=
  match current_frame s with
  | .error e => .error e
  | .ok frame =>
    match lvalue with
    | .ReturnPointer =>
      match frame.return_ptr with
      | some p => .ok p
      | none => .error (.panicked "ReturnPointer used in a function with no return value")
    | .Arg i => vec_index frame.locals i
    | .Var i => vec_index frame.locals (frame.var_offset + i)
    | .Temp i => vec_index frame.locals (frame.temp_offset + i)

/-- `Interpreter::const_to_ptr` (interpreter.rs:598-623).  `Integral`
materialises the constant in a fresh 8-byte allocation; `Bool` in a
fresh 1-byte allocation; every other constant form hits an
`unimplemented!()` macro, i.e. panics. -/
def const_to_ptr (m : Memory) (const_val : ConstVal) : EvalResult (Memory × Pointer) :=
  match const_val with
  | .Integral n =>
    let a := m.allocate 8
    match a.1.write_uint a.2 n 8 with
    | .ok m1 => .ok (m1, a.2)
    | .error e => .error e
  | .Bool b =>
    let a := m.allocate 1
    match a.1.write_bool a.2 b with
    | .ok m1 => .ok (m1, a.2)
    | .error e => .error e
  | _ => .error (.panicked "not implemented")

/-- `Interpreter::eval_operand_and_repr` (interpreter.rs:525-542).
Materialising a constant mutates memory, so the state is threaded. -/
def eval_operand_and_repr (s : InterpState) (op : Operand) :
    EvalResult (InterpState × Pointer × Repr) :=
  match op with
  | .Consume lvalue =>
    match eval_lvalue s lvalue with
    | .error e => .error e
    | .ok p =>
      match lvalue_repr s lvalue with
      | .ok r => .ok (s, p, r)
      | .error e => .error e
  | .Constant ty literal =>
    match literal with
    | .Value value =>
      match const_to_ptr s.memory value with
      | .ok (m, p) => .ok ({ s with memory := m }, p, ty_to_repr ty)
      | .error e => .error e
    | .Item => .error (.panicked "cannot handle item literal")

/-- `Interpreter::eval_operand` (interpreter.rs:521-523). -/
def eval_operand (s : InterpState) (op : Operand) : EvalResult (InterpState × Pointer) :=
  match eval_operand_and_repr s op with
  | .ok (s, p, _) => .ok (s, p)
  | .error e => .error e

/-- The value-comparison loop of the `SwitchInt` arm
(interpreter.rs:204-211): materialise each constant, read it back at
the discriminant's size, and take the target of the first match;
`target_block` holds the `otherwise` default. -/
def switch_int_loop (m : Memory) (discr_size discr_val : Nat)
    (values : List ConstVal) (targets : List Nat) (index : Nat)
    (target_block : Nat) : EvalResult (Memory × Nat) :=
  match values with
  | [] => .ok (m, target_block)
  | val_const :: rest =>
    match const_to_ptr m val_const with
    | .error e => .error e
    | .ok (m, ptr) =>
      match m.read_uint ptr discr_size with
      | .error e => .error e
      | .ok val =>
        if discr_val = val then
          match vec_index targets index with
          | .ok t => .ok (m, t)
          | .error e => .error e
        else switch_int_loop m discr_size discr_val rest targets (index + 1) target_block

/-- `Interpreter::call_intrinsic` (interpreter.rs:310-369): dispatch on
the intrinsic's name, writing any result through the lvalue
`ReturnPointer` of the *current* (caller) frame, and yield
`TerminatorTarget::Call` having pushed no frame. -/
def call_intrinsic (s : InterpState) (name : String) (substs : Substs)
    (args : List Operand) : EvalResult (InterpState × TerminatorTarget) :=
  match eval_lvalue s .ReturnPointer with
  | .error e => .error e
  | .ok dest =>
    match lvalue_repr s .ReturnPointer with
    | .error e => .error e
    | .ok dest_repr =>
      let dest_size := dest_repr.size
      match name with
      | "copy_nonoverlapping" =>
        match vec_index substs.fn_types 0 with
        | .error e => .error e
        | .ok elem_ty =>
          let elem_size := ty_size elem_ty
          match vec_index args 0 with
          | .error e => .error e
          | .ok a0 =>
            match eval_operand s a0 with
            | .error e => .error e
            | .ok (s, src_arg) =>
              match vec_index args 1 with
              | .error e => .error e
              | .ok a1 =>
                match eval_operand s a1 with
                | .error e => .error e
                | .ok (s, dest_arg) =>
                  match vec_index args 2 with
                  | .error e => .error e
                  | .ok a2 =>
                    match eval_operand s a2 with
                    | .error e => .error e
                    | .ok (s, count_arg) =>
                      match s.memory.read_ptr src_arg with
                      | .error e => .error e
                      | .ok src =>
                        match s.memory.read_ptr dest_arg with
                        | .error e => .error e
                        | .ok dest2 =>
                          match s.memory.read_int count_arg s.memory.pointer_size with
                          | .error e => .error e
                          | .ok count =>
                            match s.memory.copy src dest2
                                ((count.emod (2 ^ 64)).toNat * elem_size) with
                            | .error e => .error e
                            | .ok m => .ok ({ s with memory := m }, .Call)
      | "forget" => .ok (s, .Call)
      | "offset" =>
        match vec_index substs.fn_types 0 with
        | .error e => .error e
        | .ok pointee_ty =>
          let pointee_size : Int := (ty_size pointee_ty : Int)
          match vec_index args 0 with
          | .error e => .error e
          | .ok a0 =>
            match eval_operand s a0 with
            | .error e => .error e
            | .ok (s, ptr_arg) =>
              match vec_index args 1 with
              | .error e => .error e
              | .ok a1 =>
                match eval_operand s a1 with
                | .error e => .error e
                | .ok (s, offset_arg) =>
                  match s.memory.read_ptr ptr_arg with
                  | .error e => .error e
                  | .ok ptr =>
                    match s.memory.read_int offset_arg s.memory.pointer_size with
                    | .error e => .error e
                    | .ok offset =>
                      let result_ptr := ptr.offsetBy (offset * pointee_size)
                      match s.memory.write_ptr dest result_ptr with
                      | .error e => .error e
                      | .ok m => .ok ({ s with memory := m }, .Call)
      | "size_of" =>
        match vec_index substs.fn_types 0 with
        | .error e => .error e
        | .ok ty =>
          let size := ty_size ty
          match s.memory.write_uint dest size dest_size with
          | .error e => .error e
          | .ok m => .ok ({ s with memory := m }, .Call)
      | "transmute" =>
        match vec_index args 0 with
        | .error e => .error e
        | .ok a0 =>
          match eval_operand s a0 with
          | .error e => .error e
          | .ok (s, src) =>
            match s.memory.copy src dest dest_size with
            | .error e => .error e
            | .ok m => .ok ({ s with memory := m }, .Call)
      | "uninit" => .ok (s, .Call)
      | _ => .error (.panicked "cannot handle intrinsic")

/-- The argument-evaluation loop of the `Call` arm
(interpreter.rs:255-259): evaluate each operand and record
`(source pointer, size of its layout)`. -/
def eval_arg_srcs (s : InterpState) :
    List Operand → EvalResult (InterpState × List (Pointer × Nat))
  | [] => .ok (s, [])
  | arg :: rest =>
    match eval_operand_and_repr s arg with
    | .error e => .error e
    | .ok (s, src, repr) =>
      match eval_arg_srcs s rest with
      | .error e => .error e
      | .ok (s2, srcs) => .ok (s2, (src, repr.size) :: srcs)

/-- The `RustCall` flattening step of the `Call` arm
(interpreter.rs:261-277): when the ABI is `RustCall` and the argument
list is non-empty, drop the last evaluated source, re-evaluate the last
argument, require its layout to be an aggregate with `discr_size` 0
(and, by assertion, exactly one variant), and append one source per
field at the last argument's pointer plus the field offset. -/
def rust_call_flatten (s : InterpState) (abi : Abi) (args : List Operand)
    (arg_srcs : List (Pointer × Nat)) :
    EvalResult (InterpState × List (Pointer × Nat)) :=
  if abi = Abi.RustCall ∧ args.isEmpty = false then
    let arg_srcs := arg_srcs.dropLast
    match args.getLast? with
    | none => .error (.panicked "unwrap of empty last argument")
    | some last_arg =>
      match eval_operand_and_repr s last_arg with
      | .error e => .error e
      | .ok (s, last_src, last_repr) =>
        match last_repr with
        | .Aggregate 0 _ variants =>
          if variants.length = 1 then
            match vec_index variants 0 with
            | .error e => .error e
            | .ok fields =>
              .ok (s, arg_srcs ++ fields.map
                (fun field => (last_src.offsetBy (field.offset : Int), field.size)))
          else .error (.panicked "assertion failed: variants len is not 1")
        | _ => .error (.panicked "expected tuple as last argument in function with rust-call ABI")
  else .ok (s, arg_srcs)

/-- The locals-allocation loop of `push_stack_frame`
(interpreter.rs:153-160): one fresh allocation per declared local,
sized by its type's layout. -/
def allocate_locals (m : Memory) : List Ty → Memory × List Pointer
  | [] => (m, [])
  | ty :: rest =>
    let size := ty_size ty
    let a := m.allocate size
    let r := allocate_locals a.1 rest
    (r.1, a.2 :: r.2)

/-- `Interpreter::push_stack_frame` (interpreter.rs:150-175). -/
def push_stack_frame (s : InterpState) (mir : Mir) (return_ptr : Option Pointer) :
    EvalResult InterpState :=
  let r := allocate_locals s.memory (mir.arg_decls ++ mir.var_decls ++ mir.temp_decls)
  let num_args := mir.arg_decls.length
  let num_vars := mir.var_decls.length
  .ok { memory := r.1,
        stack := { mir := mir, next_block := START_BLOCK, return_ptr := return_ptr,
                   locals := r.2, var_offset := num_args,
                   temp_offset := num_args + num_vars } :: s.stack,
        substs_stack := s.substs_stack }

/-- `Interpreter::pop_stack_frame` (interpreter.rs:177-180): panics
when no frame exists. -/
def pop_stack_frame (s : InterpState) : EvalResult InterpState :=
  match s.stack with
  | _ :: rest => .ok { s with stack := rest }
  | [] => .error (.panicked "tried to pop a stack frame, but there were none")

/-- The argument-copy loop of the `Call` arm (interpreter.rs:283-286):
copy each evaluated source into the callee local with the same
index. -/
def copy_args (s : InterpState) (arg_srcs : List (Pointer × Nat)) (i : Nat) :
    EvalResult InterpState :=
  match arg_srcs with
  | [] => .ok s
  | (src, size) :: rest =>
    match current_frame s with
    | .error e => .error e
    | .ok frame =>
      match vec_index frame.locals i with
      | .error e => .error e
      | .ok dest =>
        match s.memory.copy src dest size with
        | .error e => .error e
        | .ok m => copy_args { s with memory := m } rest (i + 1)

/-- `Interpreter::eval_terminator` (interpreter.rs:182-308).  The
trait-method rewrite for callees with a `Self` substitution
(interpreter.rs:248-253) is elided: the modelled substitutions are
monomorphic and carry no `Self` type, so the source would take the
identity branch. -/
def eval_terminator (ctx : Ctx) (s : InterpState) (terminator : Terminator) :
    EvalResult (InterpState × TerminatorTarget) :=
  match terminator with
  | .Return => .ok (s, .Return)
  | .Goto target => .ok (s, .Block target)
  | .If cond then_target else_target =>
    match eval_operand s cond with
    | .error e => .error e
    | .ok (s, cond_ptr) =>
      match s.memory.read_bool cond_ptr with
      | .error e => .error e
      | .ok cond_val =>
        .ok (s, .Block (if cond_val then then_target else else_target))
  | .SwitchInt discr values targets =>
    match eval_lvalue s discr with
    | .error e => .error e
    | .ok discr_ptr =>
      match lvalue_repr s discr with
      | .error e => .error e
      | .ok repr =>
        let discr_size := repr.size
        match s.memory.read_uint discr_ptr discr_size with
        | .error e => .error e
        | .ok discr_val =>
          match vec_index targets (targets.length - 1) with
          | .error e => .error e
          | .ok default_target =>
            match switch_int_loop s.memory discr_size discr_val values targets 0
                default_target with
            | .error e => .error e
            | .ok (m, target_block) => .ok ({ s with memory := m }, .Block target_block)
  | .Switch discr targets =>
    match eval_lvalue s discr with
    | .error e => .error e
    | .ok adt_ptr =>
      match lvalue_repr s discr with
      | .error e => .error e
      | .ok adt_repr =>
        match adt_repr with
        | .Aggregate discr_size _ _ =>
          match s.memory.read_uint adt_ptr discr_size with
          | .error e => .error e
          | .ok discr_val =>
            match vec_index targets discr_val with
            | .error e => .error e
            | .ok target => .ok (s, .Block target)
        | _ => .error (.panicked "attmpted to switch on non-aggregate type")
  | .Call func args destination =>
    let step1 : EvalResult (InterpState × Option Pointer) :=
      match destination with
      | some (lv, target) =>
        match set_next_block s target with
        | .error e => .error e
        | .ok s1 =>
          match eval_lvalue s1 lv with
          | .error e => .error e
          | .ok p => .ok (s1, some p)
      | none => .ok (s, none)
    match step1 with
    | .error e => .error e
    | .ok (s, return_ptr) =>
      match func.abi with
      | .RustIntrinsic =>
        call_intrinsic s (ctx.item_name func.def_id) func.substs args
      | .Rust | .RustCall =>
        match eval_arg_srcs s args with
        | .error e => .error e
        | .ok (s, arg_srcs) =>
          match rust_call_flatten s func.abi args arg_srcs with
          | .error e => .error e
          | .ok (s, arg_srcs) =>
            let mir := ctx.mir_map func.def_id
            let s := { s with substs_stack := func.substs :: s.substs_stack }
            match push_stack_frame s mir return_ptr with
            | .error e => .error e
            | .ok s =>
              match copy_args s arg_srcs 0 with
              | .error e => .error e
              | .ok s => .ok (s, .Call)
      | _ => .error (.panicked "cannot handle function with this ABI")
  | .Drop target => .ok (s, .Block target)
  | .Resume => .error (.panicked "not yet implemented")

/-- `Interpreter::eval_assignment` (interpreter.rs:391-514) on the
modelled rvalue fragment. -/
def eval_assignment (s : InterpState) (lvalue : Lvalue) (rvalue : Rvalue) :
    EvalResult InterpState :=
  match eval_lvalue s lvalue with
  | .error e => .error e
  | .ok dest =>
    match lvalue_repr s lvalue with
    | .error e => .error e
    | .ok dest_repr =>
      match rvalue with
      | .Use operand =>
        match eval_operand s operand with
        | .error e => .error e
        | .ok (s, src) =>
          match s.memory.copy src dest dest_repr.size with
          | .error e => .error e
          | .ok m => .ok { s with memory := m }
      | .Ref lv =>
        match eval_lvalue s lv with
        | .error e => .error e
        | .ok ptr =>
          match s.memory.write_ptr dest ptr with
          | .error e => .error e
          | .ok m => .ok { s with memory := m }
      | .Box ty =>
        let a := s.memory.allocate (ty_size ty)
        match a.1.write_ptr dest a.2 with
        | .error e => .error e
        | .ok m => .ok { s with memory := m }

/-- The statement loop of `run` (interpreter.rs:126-130). -/
def exec_stmts (s : InterpState) : List Statement → EvalResult InterpState
  | [] => .ok s
  | stmt :: rest =>
    match eval_assignment s stmt.lvalue stmt.rvalue with
    | .error e => .error e
    | .ok s => exec_stmts s rest

/-- The inner loop of `run` (interpreter.rs:121-144): execute basic
blocks of the current frame, following local jumps, until the
terminator demands a frame change (`Call` or `Return`).  `fuel` bounds
the number of iterations (the source loop is unbounded). -/
def run_inner (ctx : Ctx) (fuel : Nat) (s : InterpState) (current_block : Nat) :
    EvalResult (InterpState × TerminatorTarget) :=
  match fuel with
  | 0 => .error .fuelExhausted
  | fuel + 1 =>
    match current_frame s with
    | .error e => .error e
    | .ok frame =>
      match vec_index frame.mir.basic_blocks current_block with
      | .error e => .error e
      | .ok block_data =>
        match exec_stmts s block_data.statements with
        | .error e => .error e
        | .ok s =>
          match eval_terminator ctx s block_data.terminator with
          | .error e => .error e
          | .ok (s, target) =>
            match target with
            | .Block block => run_inner ctx fuel s block
            | t => .ok (s, t)

/-- The outer loop of `Interpreter::run` (interpreter.rs:110-148):
while the stack is non-empty, run the top frame from its `next_block`;
on `Return`, pop one stack frame and pop the substitution stack; on
`Call`, re-enter at the (new) top frame.  `fuel` bounds the number of
iterations. -/
def run (ctx : Ctx) (fuel : Nat) (s : InterpState) : EvalResult InterpState :=
  match fuel with
  | 0 => .error .fuelExhausted
  | fuel + 1 =>
    if s.stack.isEmpty then .ok s
    else
      match current_frame s with
      | .error e => .error e
      | .ok frame =>
        match run_inner ctx fuel s frame.next_block with
        | .error e => .error e
        | .ok (s, target) =>
          match target with
          | .Return =>
            match pop_stack_frame s with
            | .error e => .error e
            | .ok s => run ctx fuel { s with substs_stack := s.substs_stack.tail }
          | _ => run ctx fuel s

/-- The per-item body of `interpret_start_points`
(interpreter.rs:845-883) up to the `run` call: build a fresh
interpreter, allocate a return buffer when `return_ty` converges, and
push the entry frame.  (Nothing is pushed onto the substitution
stack.) -/
def driver_setup (mir : Mir) : EvalResult InterpState :=
  let miri : InterpState := { memory := Memory.new, stack := [], substs_stack := [] }
  let r : Memory × Option Pointer :=
    match mir.return_ty with
    | some ty =>
      let a := miri.memory.allocate (ty_size ty)
      (a.1, some a.2)
    | none => (miri.memory, none)
  push_stack_frame { miri with memory := r.1 } mir r.2

/-- The arena and cache backing `ty_to_repr`
(interpreter.rs:36-39): `repr_arena: TypedArena<Repr>` is an
append-only list (an arena reference `&'arena Repr` is modelled as the
index of its entry), and `repr_cache: FnvHashMap<Ty, &'arena Repr>` is
an association list from types to those indices. -/
structure ReprCtx where
  arena : List Repr
  cache : List (Ty × Nat)

/-- Lookup in the representation cache (`repr_cache.borrow().get(ty)`),
keyed by structural type equality. -/
def cache_lookup : List (Ty × Nat) → Ty → Option Nat
  | [], _ => none
  | (k, v) :: rest, ty => if Ty.beq k ty then some v else cache_lookup rest ty

/-- Dereference an arena index (`&'arena Repr`).  Indices produced by
`ty_to_repr_cached` are always in bounds, so the default is never
consulted on states built by it. -/
def arena_ref (rctx : ReprCtx) (idx : Nat) : Repr :=
  rctx.arena.getD idx (Repr.Primitive 0)

mutual
/-- `Interpreter::ty_to_repr` (interpreter.rs:634-690) with its cache:
on a hit return the cached arena reference unchanged; on a miss compute
the layout (`ty_to_repr_compute`, the body of the source's `match`),
allocate it in the arena, record it in the cache, and return the new
reference. -/
def ty_to_repr_cached (rctx : ReprCtx) (ty : Ty) : ReprCtx × Nat :=
  match cache_lookup rctx.cache ty with
  | some idx => (rctx, idx)
  | none =>
    let r := ty_to_repr_compute rctx ty
    (⟨r.1.arena ++ [r.2], (ty, r.1.arena.length) :: r.1.cache⟩, r.1.arena.length)
termination_by (sizeOf ty, 1)

/-- The cache-miss computation of `ty_to_repr` (the big `match ty.sty`
at interpreter.rs:642-685), recursively sizing field types through the
cache. -/
def ty_to_repr_compute (rctx : ReprCtx) (ty : Ty) : ReprCtx × Repr :=
  match ty with
  | .TyBool => (rctx, .Primitive 1)
  | .TyInt .Is => (rctx, .Primitive POINTER_SIZE)
  | .TyInt .I8 => (rctx, .Primitive 1)
  | .TyInt .I16 => (rctx, .Primitive 2)
  | .TyInt .I32 => (rctx, .Primitive 4)
  | .TyInt .I64 => (rctx, .Primitive 8)
  | .TyUint .Us => (rctx, .Primitive POINTER_SIZE)
  | .TyUint .U8 => (rctx, .Primitive 1)
  | .TyUint .U16 => (rctx, .Primitive 2)
  | .TyUint .U32 => (rctx, .Primitive 4)
  | .TyUint .U64 => (rctx, .Primitive 8)
  | .TyTuple fields =>
    let q := ty_sizes_cached rctx fields
    (q.1, make_aggregate_repr [q.2])
  | .TyAdt variants =>
    let q := variant_field_sizes_cached rctx variants
    (q.1, make_aggregate_repr q.2)
  | .TyArray elem length =>
    let q := ty_to_repr_cached rctx elem
    (q.1, .Array (arena_ref q.1 q.2).size length)
  | .TyRef pointee_sized =>
    (rctx, if pointee_sized then .Primitive POINTER_SIZE
           else .Primitive (POINTER_SIZE * 2))
  | .TyClosure upvar_tys =>
    let q := ty_sizes_cached rctx upvar_tys
    (q.1, make_aggregate_repr [q.2])
termination_by (sizeOf ty, 0)

/-- The cached `ty_size` calls made while laying out a list of field
types. -/
def ty_sizes_cached (rctx : ReprCtx) : List Ty → ReprCtx × List Nat
  | [] => (rctx, [])
  | t :: ts =>
    let q := ty_to_repr_cached rctx t
    let sz := (arena_ref q.1 q.2).size
    let rest := ty_sizes_cached q.1 ts
    (rest.1, sz :: rest.2)
termination_by ts => (sizeOf ts, 2)

/-- The cached per-variant field sizes for an ADT's variants. -/
def variant_field_sizes_cached (rctx : ReprCtx) : List (List Ty) → ReprCtx × List (List Nat)
  | [] => (rctx, [])
  | v :: vs =>
    let q := ty_sizes_cached rctx v
    let rest := variant_field_sizes_cached q.1 vs
    (rest.1, q.2 :: rest.2)
termination_by vs => (sizeOf vs, 2)
end

/-- The sum of the recorded sizes of one variant's fields. -/
def variant_field_sum (v : List FieldRepr) : Nat := (v.map FieldRepr.size).sum

/-- The maximum, over an aggregate's variants, of the sum of the
variant's recorded field sizes. -/
def max_variant_field_sum (variants : List (List FieldRepr)) : Nat :=
  variants.foldl (fun acc v => max acc (variant_field_sum v)) 0

/-- The discriminant-size invariant exactly as the claim states it:
`discr_size` is zero if and only if the aggregate has exactly one
variant. -/
def claim_discr_iff (r : Repr) : Prop :=
  r.aggDiscrSize = 0 ↔ r.aggVariants.length = 1

/-- The target-selection semantics that `SwitchInt` actually
implements: each constant is materialised as 8 little-endian bytes and
re-read at the discriminant's size, so the discriminant is compared
against the constant *modulo `256 ^ size`*; the first match selects
its target, otherwise the default target is kept. -/
def first_match_target (dv size : Nat) :
    List Nat → List Nat → Nat → Nat → Nat
  | [], _, _, default_t => default_t
  | n :: rest, targets, index, default_t =>
    if dv = n % 256 ^ size then targets.getD index 0
    else first_match_target dv size rest targets (index + 1) default_t

/-- The target selection exactly as the claim words it: plain unsigned
equality of the discriminant value against each constant. -/
def plain_match_target (dv : Nat) : List Nat → List Nat → Nat → Nat → Nat
  | [], _, _, default_t => default_t
  | n :: rest, targets, index, default_t =>
    if dv = n then targets.getD index 0
    else plain_match_target dv rest targets (index + 1) default_t

/-- Coherence of a representation-cache state: every cache entry maps a
type to an arena slot holding exactly the layout that the cacheless
`ty_to_repr` assigns to that type.  The interpreter starts with the
empty (trivially coherent) state, and the theorems below show the
cached computation preserves coherence, so its results agree with
`ty_to_repr`. -/
def cache_coherent (rctx : ReprCtx) : Prop :=
  ∀ p ∈ rctx.cache, rctx.arena.get? p.2 = some (ty_to_repr p.1)

/-!
## Theorems
-/

mutual
theorem Ty.beq_refl : ∀ t : Ty, Ty.beq t t = true
  | .TyBool => by simp [Ty.beq]
  | .TyInt x => by simp [Ty.beq]
  | .TyUint x => by simp [Ty.beq]
  | .TyTuple fs => by simp [Ty.beq, Ty.beqList_refl fs]
  | .TyAdt vs => by simp [Ty.beq, Ty.beqVariants_refl vs]
  | .TyArray e n => by simp [Ty.beq, Ty.beq_refl e]
  | .TyRef x => by simp [Ty.beq]
  | .TyClosure fs => by simp [Ty.beq, Ty.beqList_refl fs]

theorem Ty.beqList_refl : ∀ ts : List Ty, Ty.beqList ts ts = true
  | [] => by simp [Ty.beqList]
  | t :: ts => by simp [Ty.beqList, Ty.beq_refl t, Ty.beqList_refl ts]

theorem Ty.beqVariants_refl : ∀ vs : List (List Ty), Ty.beqVariants vs vs = true
  | [] => by simp [Ty.beqVariants]
  | v :: vs => by simp [Ty.beqVariants, Ty.beqList_refl v, Ty.beqVariants_refl vs]
end

mutual
theorem Ty.beq_sound : ∀ a b : Ty, Ty.beq a b = true → a = b
  | .TyBool, .TyBool => fun h => rfl
  | .TyBool, .TyInt x2 => fun h => by simp [Ty.beq] at h
  | .TyBool, .TyUint x2 => fun h => by simp [Ty.beq] at h
  | .TyBool, .TyTuple fs2 => fun h => by simp [Ty.beq] at h
  | .TyBool, .TyAdt vs2 => fun h => by simp [Ty.beq] at h
  | .TyBool, .TyArray e2 n2 => fun h => by simp [Ty.beq] at h
  | .TyBool, .TyRef x2 => fun h => by simp [Ty.beq] at h
  | .TyBool, .TyClosure fs2 => fun h => by simp [Ty.beq] at h
  | .TyInt x1, .TyBool => fun h => by simp [Ty.beq] at h
  | .TyInt x1, .TyInt x2 => fun h => by simp [Ty.beq] at h; rw [h]
  | .TyInt x1, .TyUint x2 => fun h => by simp [Ty.beq] at h
  | .TyInt x1, .TyTuple fs2 => fun h => by simp [Ty.beq] at h
  | .TyInt x1, .TyAdt vs2 => fun h => by simp [Ty.beq] at h
  | .TyInt x1, .TyArray e2 n2 => fun h => by simp [Ty.beq] at h
  | .TyInt x1, .TyRef x2 => fun h => by simp [Ty.beq] at h
  | .TyInt x1, .TyClosure fs2 => fun h => by simp [Ty.beq] at h
  | .TyUint x1, .TyBool => fun h => by simp [Ty.beq] at h
  | .TyUint x1, .TyInt x2 => fun h => by simp [Ty.beq] at h
  | .TyUint x1, .TyUint x2 => fun h => by simp [Ty.beq] at h; rw [h]
  | .TyUint x1, .TyTuple fs2 => fun h => by simp [Ty.beq] at h
  | .TyUint x1, .TyAdt vs2 => fun h => by simp [Ty.beq] at h
  | .TyUint x1, .TyArray e2 n2 => fun h => by simp [Ty.beq] at h
  | .TyUint x1, .TyRef x2 => fun h => by simp [Ty.beq] at h
  | .TyUint x1, .TyClosure fs2 => fun h => by simp [Ty.beq] at h
  | .TyTuple fs1, .TyBool => fun h => by simp [Ty.beq] at h
  | .TyTuple fs1, .TyInt x2 => fun h => by simp [Ty.beq] at h
  | .TyTuple fs1, .TyUint x2 => fun h => by simp [Ty.beq] at h
  | .TyTuple fs1, .TyTuple fs2 => fun h => by rw [Ty.beqList_sound fs1 fs2 (by simpa [Ty.beq] using h)]
  | .TyTuple fs1, .TyAdt vs2 => fun h => by simp [Ty.beq] at h
  | .TyTuple fs1, .TyArray e2 n2 => fun h => by simp [Ty.beq] at h
  | .TyTuple fs1, .TyRef x2 => fun h => by simp [Ty.beq] at h
  | .TyTuple fs1, .TyClosure fs2 => fun h => by simp [Ty.beq] at h
  | .TyAdt vs1, .TyBool => fun h => by simp [Ty.beq] at h
  | .TyAdt vs1, .TyInt x2 => fun h => by simp [Ty.beq] at h
  | .TyAdt vs1, .TyUint x2 => fun h => by simp [Ty.beq] at h
  | .TyAdt vs1, .TyTuple fs2 => fun h => by simp [Ty.beq] at h
  | .TyAdt vs1, .TyAdt vs2 => fun h => by rw [Ty.beqVariants_sound vs1 vs2 (by simpa [Ty.beq] using h)]
  | .TyAdt vs1, .TyArray e2 n2 => fun h => by simp [Ty.beq] at h
  | .TyAdt vs1, .TyRef x2 => fun h => by simp [Ty.beq] at h
  | .TyAdt vs1, .TyClosure fs2 => fun h => by simp [Ty.beq] at h
  | .TyArray e1 n1, .TyBool => fun h => by simp [Ty.beq] at h
  | .TyArray e1 n1, .TyInt x2 => fun h => by simp [Ty.beq] at h
  | .TyArray e1 n1, .TyUint x2 => fun h => by simp [Ty.beq] at h
  | .TyArray e1 n1, .TyTuple fs2 => fun h => by simp [Ty.beq] at h
  | .TyArray e1 n1, .TyAdt vs2 => fun h => by simp [Ty.beq] at h
  | .TyArray e1 n1, .TyArray e2 n2 => fun h => by
      simp only [Ty.beq, Bool.and_eq_true, decide_eq_true_eq] at h
      rw [Ty.beq_sound e1 e2 h.1, h.2]
  | .TyArray e1 n1, .TyRef x2 => fun h => by simp [Ty.beq] at h
  | .TyArray e1 n1, .TyClosure fs2 => fun h => by simp [Ty.beq] at h
  | .TyRef x1, .TyBool => fun h => by simp [Ty.beq] at h
  | .TyRef x1, .TyInt x2 => fun h => by simp [Ty.beq] at h
  | .TyRef x1, .TyUint x2 => fun h => by simp [Ty.beq] at h
  | .TyRef x1, .TyTuple fs2 => fun h => by simp [Ty.beq] at h
  | .TyRef x1, .TyAdt vs2 => fun h => by simp [Ty.beq] at h
  | .TyRef x1, .TyArray e2 n2 => fun h => by simp [Ty.beq] at h
  | .TyRef x1, .TyRef x2 => fun h => by simp [Ty.beq] at h; rw [h]
  | .TyRef x1, .TyClosure fs2 => fun h => by simp [Ty.beq] at h
  | .TyClosure fs1, .TyBool => fun h => by simp [Ty.beq] at h
  | .TyClosure fs1, .TyInt x2 => fun h => by simp [Ty.beq] at h
  | .TyClosure fs1, .TyUint x2 => fun h => by simp [Ty.beq] at h
  | .TyClosure fs1, .TyTuple fs2 => fun h => by simp [Ty.beq] at h
  | .TyClosure fs1, .TyAdt vs2 => fun h => by simp [Ty.beq] at h
  | .TyClosure fs1, .TyArray e2 n2 => fun h => by simp [Ty.beq] at h
  | .TyClosure fs1, .TyRef x2 => fun h => by simp [Ty.beq] at h
  | .TyClosure fs1, .TyClosure fs2 => fun h => by rw [Ty.beqList_sound fs1 fs2 (by simpa [Ty.beq] using h)]

theorem Ty.beqList_sound : ∀ a b : List Ty, Ty.beqList a b = true → a = b
  | [], [], _ => rfl
  | [], t :: ts, h => by simp [Ty.beqList] at h
  | t :: ts, [], h => by simp [Ty.beqList] at h
  | t :: ts, u :: us, h => by
    simp only [Ty.beqList, Bool.and_eq_true] at h
    rw [Ty.beq_sound t u h.1, Ty.beqList_sound ts us h.2]

theorem Ty.beqVariants_sound : ∀ a b : List (List Ty), Ty.beqVariants a b = true → a = b
  | [], [], _ => rfl
  | [], v :: vs, h => by simp [Ty.beqVariants] at h
  | v :: vs, [], h => by simp [Ty.beqVariants] at h
  | v :: vs, w :: ws, h => by
    simp only [Ty.beqVariants, Bool.and_eq_true] at h
    rw [Ty.beqList_sound v w h.1, Ty.beqVariants_sound vs ws h.2]
end

theorem fields_and_size_snd (sizes : List Nat) (size : Nat) :
    (fields_and_size sizes size).2 = size + sizes.sum := by
  induction sizes generalizing size with
  | nil => simp [fields_and_size]
  | cons a rest ih => simp [fields_and_size, ih, Nat.add_assoc]

theorem fields_and_size_map_size (sizes : List Nat) (size : Nat) :
    ((fields_and_size sizes size).1).map FieldRepr.size = sizes := by
  induction sizes generalizing size with
  | nil => simp [fields_and_size]
  | cons a rest ih => simp [fields_and_size, ih]

theorem fields_and_size_length (sizes : List Nat) (size : Nat) :
    ((fields_and_size sizes size).1).length = sizes.length := by
  induction sizes generalizing size with
  | nil => simp [fields_and_size]
  | cons a rest ih => simp [fields_and_size, ih]

theorem fields_and_size_offset (sizes : List Nat) (size : Nat) :
    ∀ (i : Nat) (h : i < (fields_and_size sizes size).1.length),
      (((fields_and_size sizes size).1).get ⟨i, h⟩).offset
        = size + ((((fields_and_size sizes size).1).take i).map FieldRepr.size).sum := by
  induction sizes generalizing size with
  | nil => intro i h; simp [fields_and_size] at h
  | cons a rest ih =>
    intro i h
    match i with
    | 0 => simp [fields_and_size]
    | j + 1 =>
      have h2 : j < (fields_and_size rest (size + a)).1.length := by
        have := h
        simp [fields_and_size] at this
        omega
      have := ih (size + a) j h2
      simp only [List.get_eq_getElem, List.map_take] at this
      simp [fields_and_size, this, Nat.add_assoc, List.map_take]

theorem variant_sum_eq_snd (f : List Nat) :
    variant_field_sum (fields_and_size f 0).1 = (fields_and_size f 0).2 := by
  rw [variant_field_sum, fields_and_size_map_size, fields_and_size_snd]
  simp

theorem foldl_max_variants_eq (vf : List (List Nat)) (acc : Nat) :
    ((vf.map (fun f => fields_and_size f 0)).map Prod.fst).foldl
        (fun a v => max a (variant_field_sum v)) acc
      = (vf.map (fun f => fields_and_size f 0)).foldl (fun a p => max a p.2) acc := by
  induction vf generalizing acc with
  | nil => simp
  | cons f rest ih =>
    simp only [List.map_cons, List.foldl_cons, variant_sum_eq_snd]
    exact ih _

/-- C1: for every aggregate layout built by the layout computer, the
recorded total size equals the discriminant size plus the maximum over
all variants of the sum of that variant's recorded field sizes; for a
single-variant aggregate the size is exactly that variant's field-size
sum. -/
theorem aggregate_size_closure (variant_fields : List (List Nat)) :
    (make_aggregate_repr variant_fields).size
      = (make_aggregate_repr variant_fields).aggDiscrSize
        + max_variant_field_sum (make_aggregate_repr variant_fields).aggVariants
    ∧ ((make_aggregate_repr variant_fields).aggVariants.length = 1 →
        (make_aggregate_repr variant_fields).size
          = variant_field_sum ((make_aggregate_repr variant_fields).aggVariants.headD [])) := by
  constructor
  · simp only [make_aggregate_repr, Repr.size, Repr.aggDiscrSize, Repr.aggVariants,
      max_variant_field_sum, foldl_max_variants_eq]
    exact Nat.add_comm _ _
  · intro hlen
    simp only [make_aggregate_repr, Repr.aggVariants, List.length_map] at hlen
    obtain ⟨f, hf⟩ := List.length_eq_one.mp hlen
    subst hf
    simp [make_aggregate_repr, Repr.size, Repr.aggVariants, discr_size_of,
      variant_sum_eq_snd]

/-- Witness for C1 at a concrete single-variant aggregate. -/
theorem aggregate_size_closure_witness :
    (make_aggregate_repr [[1, 2]]).size
      = variant_field_sum ((make_aggregate_repr [[1, 2]]).aggVariants.headD []) :=
  (aggregate_size_closure [[1, 2]]).2 (by decide)

/-- C3: in every aggregate layout built by the layout computer, the
recorded offset of field `i` of any variant is the sum of the recorded
sizes of that variant's fields `0..i` (so the first field has
offset 0): offsets are plain prefix sums, with no padding or alignment
adjustment. -/
theorem field_offsets_are_prefix_sums (variant_fields : List (List Nat)) :
    ∀ v ∈ (make_aggregate_repr variant_fields).aggVariants,
      ∀ (i : Nat) (h : i < v.length),
        (v.get ⟨i, h⟩).offset = ((v.take i).map FieldRepr.size).sum := by
  intro v hv i h
  simp only [make_aggregate_repr, Repr.aggVariants, List.map_map, List.mem_map] at hv
  obtain ⟨f, _, hf⟩ := hv
  subst hf
  have := fields_and_size_offset f 0 i h
  simpa using this

/-- Witness for C3 at a concrete variant: field 2 of the variant built
from sizes `[2, 3, 4]` has offset `2 + 3`. -/
theorem field_offsets_are_prefix_sums_witness :
    (([⟨0, 2⟩, ⟨2, 3⟩, ⟨5, 4⟩] : List FieldRepr).get ⟨2, by decide⟩).offset
      = ((([⟨0, 2⟩, ⟨2, 3⟩, ⟨5, 4⟩] : List FieldRepr).take 2).map FieldRepr.size).sum :=
  field_offsets_are_prefix_sums [[2, 3, 4]] [⟨0, 2⟩, ⟨2, 3⟩, ⟨5, 4⟩] (by decide) 2 (by decide)

/-- C2 counterexample: the layout computer maps a zero-variant enum
(`enum Void {}`, reaching `make_aggregate_repr` with an empty variant
iterator) to an aggregate with `discr_size = 0` and zero variants, so
`discr_size = 0` does *not* imply exactly one variant: the claimed iff
fails on this layout. -/
theorem discr_size_iff_counterexample :
    ty_to_repr (Ty.TyAdt []) = Repr.Aggregate 0 0 []
    ∧ ¬ claim_discr_iff (ty_to_repr (Ty.TyAdt [])) := by
  have h : ty_to_repr (Ty.TyAdt []) = Repr.Aggregate 0 0 [] := by
    simp [ty_to_repr, variant_field_sizes, make_aggregate_repr, discr_size_of]
  refine ⟨h, ?_⟩
  rw [h]
  simp [claim_discr_iff, Repr.aggDiscrSize, Repr.aggVariants]

/-- C2 (amended): for every aggregate layout built by the layout
computer, `discr_size` is 0 iff the type has **at most** one variant
(the zero-variant case also gets 0); with more than one variant it is
the smallest power-of-two byte width sufficient to tag them: 1 for at
most 256 variants, 2 for at most 65536, 4 for at most 2^32, else 8. -/
theorem discr_size_rule (variant_fields : List (List Nat)) :
    ((make_aggregate_repr variant_fields).aggDiscrSize = 0
      ↔ (make_aggregate_repr variant_fields).aggVariants.length ≤ 1)
    ∧ (1 < (make_aggregate_repr variant_fields).aggVariants.length →
        (make_aggregate_repr variant_fields).aggVariants.length ≤ 256 →
        (make_aggregate_repr variant_fields).aggDiscrSize = 1)
    ∧ (256 < (make_aggregate_repr variant_fields).aggVariants.length →
        (make_aggregate_repr variant_fields).aggVariants.length ≤ 65536 →
        (make_aggregate_repr variant_fields).aggDiscrSize = 2)
    ∧ (65536 < (make_aggregate_repr variant_fields).aggVariants.length →
        (make_aggregate_repr variant_fields).aggVariants.length ≤ 4294967296 →
        (make_aggregate_repr variant_fields).aggDiscrSize = 4)
    ∧ (4294967296 < (make_aggregate_repr variant_fields).aggVariants.length →
        (make_aggregate_repr variant_fields).aggDiscrSize = 8) := by
  have e8 : (1 <<< 8 : Nat) = 256 := by decide
  have e16 : (1 <<< 16 : Nat) = 65536 := by decide
  have e32 : (1 <<< 32 : Nat) = 4294967296 := by decide
  have hd : (make_aggregate_repr variant_fields).aggDiscrSize
      = discr_size_of variant_fields.length := by
    simp [make_aggregate_repr, Repr.aggDiscrSize]
  have hv : (make_aggregate_repr variant_fields).aggVariants.length
      = variant_fields.length := by
    simp [make_aggregate_repr, Repr.aggVariants]
  rw [hd, hv]
  have key : ∀ n : Nat, (discr_size_of n = 0 ↔ n ≤ 1)
      ∧ (1 < n → n ≤ 256 → discr_size_of n = 1)
      ∧ (256 < n → n ≤ 65536 → discr_size_of n = 2)
      ∧ (65536 < n → n ≤ 4294967296 → discr_size_of n = 4)
      ∧ (4294967296 < n → discr_size_of n = 8) := by
    intro n
    unfold discr_size_of
    simp only [e8, e16, e32]
    refine ⟨?_, fun h1 h2 => ?_, fun h1 h2 => ?_, fun h1 h2 => ?_, fun h1 => ?_⟩ <;>
      split_ifs <;> first
        | omega
        | trivial
        | exact ⟨fun h => h.elim, fun h => by omega⟩
  exact key variant_fields.length

/-- Witness for the amended C2 at a three-variant aggregate: its
discriminant takes one byte. -/
theorem discr_size_rule_witness :
    (make_aggregate_repr [[], [], []]).aggDiscrSize = 1 :=
  (discr_size_rule [[], [], []]).2.1 (by decide) (by decide)

theorem cache_hit_after (rctx : ReprCtx) (ty : Ty) :
    cache_lookup (ty_to_repr_cached rctx ty).1.cache ty
      = some (ty_to_repr_cached rctx ty).2 := by
  rw [ty_to_repr_cached.eq_def]
  cases h : cache_lookup rctx.cache ty with
  | some idx => simpa [h] using h
  | none => simp [h, cache_lookup, Ty.beq_refl]

mutual
theorem arena_extends_ty (rctx : ReprCtx) (ty : Ty) :
    ∃ l, (ty_to_repr_cached rctx ty).1.arena = rctx.arena ++ l := by
  cases hc : cache_lookup rctx.cache ty with
  | some idx =>
    refine ⟨[], ?_⟩
    rw [ty_to_repr_cached.eq_def]
    simp [hc]
  | none =>
    obtain ⟨l1, hl1⟩ := arena_extends_compute rctx ty
    refine ⟨l1 ++ [(ty_to_repr_compute rctx ty).2], ?_⟩
    rw [ty_to_repr_cached.eq_def]
    simp [hc, hl1]
termination_by (sizeOf ty, 1)

theorem arena_extends_compute (rctx : ReprCtx) (ty : Ty) :
    ∃ l, (ty_to_repr_compute rctx ty).1.arena = rctx.arena ++ l := by
  cases ty with
  | TyBool => exact ⟨[], by rw [ty_to_repr_compute.eq_def]; simp⟩
  | TyInt t => cases t <;> exact ⟨[], by rw [ty_to_repr_compute.eq_def]; simp⟩
  | TyUint t => cases t <;> exact ⟨[], by rw [ty_to_repr_compute.eq_def]; simp⟩
  | TyTuple fields =>
    obtain ⟨l1, hl1⟩ := arena_extends_tys rctx fields
    exact ⟨l1, by rw [ty_to_repr_compute.eq_def]; simpa using hl1⟩
  | TyAdt variants =>
    obtain ⟨l1, hl1⟩ := arena_extends_variants rctx variants
    exact ⟨l1, by rw [ty_to_repr_compute.eq_def]; simpa using hl1⟩
  | TyArray elem length =>
    obtain ⟨l1, hl1⟩ := arena_extends_ty rctx elem
    exact ⟨l1, by rw [ty_to_repr_compute.eq_def]; simpa using hl1⟩
  | TyRef pointee_sized => exact ⟨[], by rw [ty_to_repr_compute.eq_def]; simp⟩
  | TyClosure upvar_tys =>
    obtain ⟨l1, hl1⟩ := arena_extends_tys rctx upvar_tys
    exact ⟨l1, by rw [ty_to_repr_compute.eq_def]; simpa using hl1⟩
termination_by (sizeOf ty, 0)

theorem arena_extends_tys (rctx : ReprCtx) (ts : List Ty) :
    ∃ l, (ty_sizes_cached rctx ts).1.arena = rctx.arena ++ l := by
  cases ts with
  | nil => exact ⟨[], by rw [ty_sizes_cached.eq_def]; simp⟩
  | cons t rest =>
    obtain ⟨l1, hl1⟩ := arena_extends_ty rctx t
    obtain ⟨l2, hl2⟩ := arena_extends_tys (ty_to_repr_cached rctx t).1 rest
    exact ⟨l1 ++ l2, by rw [ty_sizes_cached.eq_def]; simp [hl2, hl1]⟩
termination_by (sizeOf ts, 2)

theorem arena_extends_variants (rctx : ReprCtx) (vs : List (List Ty)) :
    ∃ l, (variant_field_sizes_cached rctx vs).1.arena = rctx.arena ++ l := by
  cases vs with
  | nil => exact ⟨[], by rw [variant_field_sizes_cached.eq_def]; simp⟩
  | cons v rest =>
    obtain ⟨l1, hl1⟩ := arena_extends_tys rctx v
    obtain ⟨l2, hl2⟩ := arena_extends_variants (ty_sizes_cached rctx v).1 rest
    exact ⟨l1 ++ l2, by rw [variant_field_sizes_cached.eq_def]; simp [hl2, hl1]⟩
termination_by (sizeOf vs, 2)
end

/-- C9: layout computation is stable under the cache.  The arena
reference (modelled as an arena index) returned for `ty` by a second
call is identical to the first one, the second call leaves the
arena/cache state untouched, and the arena entry behind the reference
survives any later layout computation (the arena is append-only, so
cached layouts live for the interpreter's lifetime). -/
theorem layout_cache_stable (rctx : ReprCtx) (ty : Ty) :
    (ty_to_repr_cached (ty_to_repr_cached rctx ty).1 ty).2 = (ty_to_repr_cached rctx ty).2
    ∧ (ty_to_repr_cached (ty_to_repr_cached rctx ty).1 ty).1 = (ty_to_repr_cached rctx ty).1
    ∧ ∀ (ty2 : Ty) (v : Repr),
        (ty_to_repr_cached rctx ty).1.arena.get? (ty_to_repr_cached rctx ty).2 = some v →
        (ty_to_repr_cached (ty_to_repr_cached rctx ty).1 ty2).1.arena.get?
            (ty_to_repr_cached rctx ty).2 = some v := by
  have h := cache_hit_after rctx ty
  refine ⟨?_, ?_, ?_⟩
  · conv_lhs => rw [ty_to_repr_cached.eq_def]
    simp [h]
  · conv_lhs => rw [ty_to_repr_cached.eq_def]
    simp [h]
  · intro ty2 v hv
    obtain ⟨l, hl⟩ := arena_extends_ty (ty_to_repr_cached rctx ty).1 ty2
    rw [hl]
    have hn : (ty_to_repr_cached rctx ty).2 < (ty_to_repr_cached rctx ty).1.arena.length := by
      rcases List.get?_eq_some.mp hv with ⟨hh, _⟩
      exact hh
    rw [List.get?_append hn, hv]

/-- Witness for C9: starting from the empty cache, the entry cached for
`bool` by a first call is still behind the same reference after a
second call. -/
theorem layout_cache_stable_witness :
    (ty_to_repr_cached (ty_to_repr_cached ⟨[], []⟩ Ty.TyBool).1 Ty.TyBool).1.arena.get?
        (ty_to_repr_cached ⟨[], []⟩ Ty.TyBool).2 = some (Repr.Primitive 1) := by
  have hv : (ty_to_repr_cached ⟨[], []⟩ Ty.TyBool).1.arena.get?
      (ty_to_repr_cached ⟨[], []⟩ Ty.TyBool).2 = some (Repr.Primitive 1) := by
    rw [ty_to_repr_cached.eq_def]
    simp [cache_lookup, ty_to_repr_compute]
  exact (layout_cache_stable ⟨[], []⟩ Ty.TyBool).2.2 Ty.TyBool (Repr.Primitive 1) hv

theorem eval_operand_and_repr_stacks {s : InterpState} {op : Operand} {s1 : InterpState}
    {p : Pointer} {r : Repr} (h : eval_operand_and_repr s op = .ok (s1, p, r)) :
    s1.stack = s.stack ∧ s1.substs_stack = s.substs_stack := by
  cases op with
  | Consume lv =>
    simp only [eval_operand_and_repr] at h
    split at h
    · exact absurd h (by simp)
    · split at h
      · simp at h
        obtain ⟨rfl, -, -⟩ := h
        exact ⟨rfl, rfl⟩
      · exact absurd h (by simp)
  | Constant ty literal =>
    cases literal with
    | Value value =>
      simp only [eval_operand_and_repr] at h
      split at h
      · simp at h
        obtain ⟨rfl, -, -⟩ := h
        exact ⟨rfl, rfl⟩
      · exact absurd h (by simp)
    | Item =>
      simp only [eval_operand_and_repr] at h
      exact absurd h (by simp)

theorem eval_operand_and_repr_memory {s : InterpState} {op : Operand} {s1 : InterpState}
    {p : Pointer} {r : Repr} (h : eval_operand_and_repr s op = .ok (s1, p, r)) :
    ∃ m, s1 = { s with memory := m } := by
  cases op with
  | Consume lv =>
    simp only [eval_operand_and_repr] at h
    split at h
    · exact absurd h (by simp)
    · split at h
      · simp at h
        obtain ⟨rfl, -, -⟩ := h
        exact ⟨s.memory, rfl⟩
      · exact absurd h (by simp)
  | Constant ty literal =>
    cases literal with
    | Value value =>
      simp only [eval_operand_and_repr] at h
      split at h
      · rename_i m2 p2 heq
        simp at h
        obtain ⟨rfl, -, -⟩ := h
        exact ⟨m2, rfl⟩
      · exact absurd h (by simp)
    | Item =>
      simp only [eval_operand_and_repr] at h
      exact absurd h (by simp)

theorem eval_operand_memory {s : InterpState} {op : Operand} {s1 : InterpState}
    {p : Pointer} (h : eval_operand s op = .ok (s1, p)) :
    ∃ m, s1 = { s with memory := m } := by
  simp only [eval_operand] at h
  split at h
  · rename_i s2 p2 r2 heq
    simp at h
    obtain ⟨rfl, -⟩ := h
    exact eval_operand_and_repr_memory heq
  · exact absurd h (by simp)

theorem eval_operand_stacks {s : InterpState} {op : Operand} {s1 : InterpState}
    {p : Pointer} (h : eval_operand s op = .ok (s1, p)) :
    s1.stack = s.stack ∧ s1.substs_stack = s.substs_stack := by
  simp only [eval_operand] at h
  split at h
  · rename_i s2 p2 r2 heq
    simp at h
    obtain ⟨rfl, -⟩ := h
    exact eval_operand_and_repr_stacks heq
  · exact absurd h (by simp)

theorem eval_arg_srcs_stacks {args : List Operand} :
    ∀ {s s1 : InterpState} {srcs : List (Pointer × Nat)},
    eval_arg_srcs s args = .ok (s1, srcs) →
    s1.stack = s.stack ∧ s1.substs_stack = s.substs_stack := by
  induction args with
  | nil =>
    intro s s1 srcs h
    simp only [eval_arg_srcs] at h
    simp at h
    obtain ⟨rfl, -⟩ := h
    exact ⟨rfl, rfl⟩
  | cons a rest ih =>
    intro s s1 srcs h
    simp only [eval_arg_srcs] at h
    split at h
    · exact absurd h (by simp)
    · rename_i s2 src repr heq
      split at h
      · exact absurd h (by simp)
      · rename_i s3 srcs2 heq2
        simp at h
        obtain ⟨rfl, -⟩ := h
        have h1 := eval_operand_and_repr_stacks heq
        have h2 := ih heq2
        exact ⟨h2.1.trans h1.1, h2.2.trans h1.2⟩

theorem copy_args_stacks {arg_srcs : List (Pointer × Nat)} :
    ∀ (s : InterpState) (i : Nat) (s1 : InterpState),
    copy_args s arg_srcs i = .ok s1 →
    s1.stack = s.stack ∧ s1.substs_stack = s.substs_stack := by
  induction arg_srcs with
  | nil =>
    intro s i s1 h
    simp only [copy_args] at h
    simp at h
    subst h
    exact ⟨rfl, rfl⟩
  | cons hd rest ih =>
    intro s i s1 h
    obtain ⟨src, size⟩ := hd
    simp only [copy_args] at h
    split at h
    · exact absurd h (by simp)
    · split at h
      · exact absurd h (by simp)
      · split at h
        · exact absurd h (by simp)
        · rename_i m1 heq
          exact ih { s with memory := m1 } (i + 1) s1 h

theorem rust_call_flatten_stacks {s : InterpState} {abi : Abi} {args : List Operand}
    {arg_srcs : List (Pointer × Nat)} {s1 : InterpState} {srcs2 : List (Pointer × Nat)}
    (h : rust_call_flatten s abi args arg_srcs = .ok (s1, srcs2)) :
    s1.stack = s.stack ∧ s1.substs_stack = s.substs_stack := by
  simp only [rust_call_flatten] at h
  split at h
  · split at h
    · exact absurd h (by simp)
    · split at h
      · exact absurd h (by simp)
      · rename_i s2 last_src last_repr heq
        split at h
        · split at h
          · split at h
            · exact absurd h (by simp)
            · simp at h
              obtain ⟨rfl, -⟩ := h
              exact eval_operand_and_repr_stacks heq
          · exact absurd h (by simp)
        · exact absurd h (by simp)
  · simp at h
    obtain ⟨rfl, -⟩ := h
    exact ⟨rfl, rfl⟩

theorem call_intrinsic_stacks {s : InterpState} {name : String} {substs : Substs}
    {args : List Operand} {s1 : InterpState} {tgt : TerminatorTarget}
    (h : call_intrinsic s name substs args = .ok (s1, tgt)) :
    s1.stack = s.stack ∧ s1.substs_stack = s.substs_stack ∧ tgt = .Call
      ∧ ∃ dest, eval_lvalue s Lvalue.ReturnPointer = .ok dest := by
  simp only [call_intrinsic] at h
  split at h
  · exact absurd h (by simp)
  · rename_i dest heq_dest
    split at h
    · exact absurd h (by simp)
    · rename_i dest_repr heq_repr
      split at h
      -- "copy_nonoverlapping"
      · split at h
        · exact absurd h (by simp)
        · rename_i elem_ty hv1
          split at h
          · exact absurd h (by simp)
          · rename_i a0 hv2
            split at h
            · exact absurd h (by simp)
            · rename_i sA srcArg he1
              obtain ⟨mA, rfl⟩ := eval_operand_memory he1
              split at h
              · exact absurd h (by simp)
              · rename_i a1 hv3
                split at h
                · exact absurd h (by simp)
                · rename_i sB destArg he2
                  obtain ⟨mB, rfl⟩ := eval_operand_memory he2
                  split at h
                  · exact absurd h (by simp)
                  · rename_i a2 hv4
                    split at h
                    · exact absurd h (by simp)
                    · rename_i sC countArg he3
                      obtain ⟨mC, rfl⟩ := eval_operand_memory he3
                      split at h
                      · exact absurd h (by simp)
                      · rename_i src hr1
                        split at h
                        · exact absurd h (by simp)
                        · rename_i dest2 hr2
                          split at h
                          · exact absurd h (by simp)
                          · rename_i count hr3
                            split at h
                            · exact absurd h (by simp)
                            · rename_i m hcp
                              simp at h
                              obtain ⟨rfl, rfl⟩ := h
                              exact ⟨rfl, rfl, rfl, dest, heq_dest⟩
      -- "forget"
      · simp at h
        obtain ⟨rfl, rfl⟩ := h
        exact ⟨rfl, rfl, rfl, dest, heq_dest⟩
      -- "offset"
      · split at h
        · exact absurd h (by simp)
        · rename_i pointee_ty hv1
          split at h
          · exact absurd h (by simp)
          · rename_i a0 hv2
            split at h
            · exact absurd h (by simp)
            · rename_i sA ptrArg he1
              obtain ⟨mA, rfl⟩ := eval_operand_memory he1
              split at h
              · exact absurd h (by simp)
              · rename_i a1 hv3
                split at h
                · exact absurd h (by simp)
                · rename_i sB offsetArg he2
                  obtain ⟨mB, rfl⟩ := eval_operand_memory he2
                  split at h
                  · exact absurd h (by simp)
                  · rename_i ptr hr1
                    split at h
                    · exact absurd h (by simp)
                    · rename_i offset hr2
                      split at h
                      · exact absurd h (by simp)
                      · rename_i m hw
                        simp at h
                        obtain ⟨rfl, rfl⟩ := h
                        exact ⟨rfl, rfl, rfl, dest, heq_dest⟩
      -- "size_of"
      · split at h
        · exact absurd h (by simp)
        · rename_i ty hv1
          split at h
          · exact absurd h (by simp)
          · rename_i m hw
            simp at h
            obtain ⟨rfl, rfl⟩ := h
            exact ⟨rfl, rfl, rfl, dest, heq_dest⟩
      -- "transmute"
      · split at h
        · exact absurd h (by simp)
        · rename_i a0 hv1
          split at h
          · exact absurd h (by simp)
          · rename_i sA src he1
            obtain ⟨mA, rfl⟩ := eval_operand_memory he1
            split at h
            · exact absurd h (by simp)
            · rename_i m hcp
              simp at h
              obtain ⟨rfl, rfl⟩ := h
              exact ⟨rfl, rfl, rfl, dest, heq_dest⟩
      -- "uninit"
      · simp at h
        obtain ⟨rfl, rfl⟩ := h
        exact ⟨rfl, rfl, rfl, dest, heq_dest⟩
      -- unknown intrinsic: panics
      · exact absurd h (by simp)

theorem push_stack_frame_ok {s : InterpState} {mir : Mir} {return_ptr : Option Pointer}
    {s1 : InterpState} (h : push_stack_frame s mir return_ptr = .ok s1) :
    ∃ nf, s1.stack = nf :: s.stack ∧ nf.mir = mir ∧ nf.next_block = START_BLOCK
      ∧ nf.return_ptr = return_ptr ∧ s1.substs_stack = s.substs_stack
      ∧ s1.memory = (allocate_locals s.memory
          (mir.arg_decls ++ mir.var_decls ++ mir.temp_decls)).1 := by
  simp only [push_stack_frame] at h
  simp at h
  subst h
  exact ⟨_, rfl, rfl, rfl, rfl, rfl, by simp⟩

theorem set_next_block_ok {s : InterpState} {target : Nat} {s1 : InterpState}
    (h : set_next_block s target = .ok s1) :
    ∃ f rest, s.stack = f :: rest
      ∧ s1.stack = { f with next_block := target } :: rest
      ∧ s1.substs_stack = s.substs_stack ∧ s1.memory = s.memory := by
  simp only [set_next_block] at h
  split at h
  · rename_i f rest heq
    simp at h
    subst h
    exact ⟨f, rest, heq, rfl, rfl, rfl⟩
  · exact absurd h (by simp)

theorem intrinsic_terminator_effect (ctx : Ctx) (s : InterpState) (func : FnDefTy)
    (args : List Operand) (destination : Option (Lvalue × Nat))
    (s' : InterpState) (tgt : TerminatorTarget)
    (habi : func.abi = Abi.RustIntrinsic)
    (h : eval_terminator ctx s (.Call func args destination) = .ok (s', tgt)) :
    tgt = .Call
    ∧ s'.stack.length = s.stack.length
    ∧ s'.substs_stack = s.substs_stack
    ∧ s'.stack.tail = s.stack.tail
    ∧ (∀ f, s.stack.head? = some f → ∃ f2, s'.stack.head? = some f2
        ∧ f2.return_ptr = f.return_ptr ∧ f2.locals = f.locals ∧ f2.mir = f.mir)
    ∧ ∃ s0 dest, eval_lvalue s0 Lvalue.ReturnPointer = .ok dest
        ∧ call_intrinsic s0 (ctx.item_name func.def_id) func.substs args
            = .ok (s', tgt) := by
  obtain ⟨fid, fsubsts, fabi⟩ := func
  simp only at habi
  subst habi
  cases destination with
  | none =>
    simp only [eval_terminator] at h
    obtain ⟨h1, h2, h3, dest, hdest⟩ := call_intrinsic_stacks h
    refine ⟨h3, by rw [h1], h2, by rw [h1], ?_, s, dest, hdest, h⟩
    intro f hf
    exact ⟨f, by rw [h1]; exact hf, rfl, rfl, rfl⟩
  | some dl =>
    obtain ⟨lv, target⟩ := dl
    simp only [eval_terminator] at h
    split at h
    · exact absurd h (by simp)
    · rename_i sM rp hsnb
      split at hsnb
      · exact absurd hsnb (by simp)
      · rename_i s0 hset
        split at hsnb
        · exact absurd hsnb (by simp)
        · rename_i p hlv
          simp at hsnb
          obtain ⟨rfl, rfl⟩ := hsnb
          obtain ⟨h1, h2, h3, dest, hdest⟩ := call_intrinsic_stacks h
          obtain ⟨f, rest, hs, hs0, hsub0, hmem0⟩ := set_next_block_ok hset
          refine ⟨h3, ?_, h2.trans hsub0, ?_, ?_, s0, dest, hdest, h⟩
          · rw [h1, hs0, hs]
            simp
          · rw [h1, hs0, hs]
            simp
          · intro f0 hf0
            rw [hs] at hf0
            simp at hf0
            subst hf0
            exact ⟨{ f with next_block := target }, by rw [h1, hs0]; rfl, rfl, rfl, rfl⟩

/-- C5: a `Call` terminator whose callee has the `RustIntrinsic` ABI
and whose evaluation succeeds is executed in place: the outcome is
`TerminatorTarget.Call`, the call stack keeps its depth (no frame
pushed; only the top frame's `next_block` may change), the
substitution stack is untouched, and the work is done by
`call_intrinsic`, which addresses its result through the caller's
`ReturnPointer` lvalue (the main loop then resumes at the caller's
stored `next_block`, as for a returned-from real call). -/
theorem intrinsic_call_in_place (ctx : Ctx) (s : InterpState) (func : FnDefTy)
    (args : List Operand) (destination : Option (Lvalue × Nat))
    (s' : InterpState) (tgt : TerminatorTarget)
    (habi : func.abi = Abi.RustIntrinsic)
    (h : eval_terminator ctx s (.Call func args destination) = .ok (s', tgt)) :
    tgt = .Call
    ∧ s'.stack.length = s.stack.length
    ∧ s'.substs_stack = s.substs_stack
    ∧ s'.stack.tail = s.stack.tail
    ∧ (∀ f, s.stack.head? = some f → ∃ f2, s'.stack.head? = some f2
        ∧ f2.return_ptr = f.return_ptr ∧ f2.locals = f.locals ∧ f2.mir = f.mir)
    ∧ ∃ s0 dest, eval_lvalue s0 Lvalue.ReturnPointer = .ok dest
        ∧ call_intrinsic s0 (ctx.item_name func.def_id) func.substs args
            = .ok (s', tgt) :=
  intrinsic_terminator_effect ctx s func args destination s' tgt habi h

/-- Witness for C5: a concrete successful `forget` intrinsic call,
executed in place with the substitution stack untouched. -/
theorem intrinsic_call_in_place_witness :
    eval_terminator
        ⟨fun _ => ⟨[], [], [], [], none⟩, fun _ => "forget"⟩
        ⟨Memory.new, [⟨⟨[], [], [], [], some Ty.TyBool⟩, 0, some ⟨0, 0⟩, [], 0, 0⟩], []⟩
        (.Call ⟨0, ⟨[]⟩, Abi.RustIntrinsic⟩ [] none)
      = .ok (⟨Memory.new, [⟨⟨[], [], [], [], some Ty.TyBool⟩, 0, some ⟨0, 0⟩, [], 0, 0⟩], []⟩,
             .Call)
    ∧ (⟨Memory.new, [⟨⟨[], [], [], [], some Ty.TyBool⟩, 0, some ⟨0, 0⟩, [], 0, 0⟩], []⟩
        : InterpState).substs_stack
      = (⟨Memory.new, [⟨⟨[], [], [], [], some Ty.TyBool⟩, 0, some ⟨0, 0⟩, [], 0, 0⟩], []⟩
        : InterpState).substs_stack := by
  refine ⟨rfl, ?_⟩
  exact (intrinsic_call_in_place
    ⟨fun _ => ⟨[], [], [], [], none⟩, fun _ => "forget"⟩
    ⟨Memory.new, [⟨⟨[], [], [], [], some Ty.TyBool⟩, 0, some ⟨0, 0⟩, [], 0, 0⟩], []⟩
    ⟨0, ⟨[]⟩, Abi.RustIntrinsic⟩ [] none
    ⟨Memory.new, [⟨⟨[], [], [], [], some Ty.TyBool⟩, 0, some ⟨0, 0⟩, [], 0, 0⟩], []⟩
    .Call rfl rfl).2.2.1

/-- C10: a `Call` terminator with an absent destination (a diverging
call) whose evaluation succeeds pushes the callee frame with
`return_ptr = none` and `next_block = START_BLOCK`, and leaves the
whole existing stack — in particular the calling frame and its
`next_block` — unchanged below it. -/
theorem diverging_call_pushes_none (ctx : Ctx) (s : InterpState) (func : FnDefTy)
    (args : List Operand) (s' : InterpState) (tgt : TerminatorTarget)
    (habi : func.abi = Abi.Rust ∨ func.abi = Abi.RustCall)
    (h : eval_terminator ctx s (.Call func args none) = .ok (s', tgt)) :
    ∃ nf, s'.stack = nf :: s.stack ∧ nf.return_ptr = none
      ∧ nf.next_block = START_BLOCK ∧ tgt = .Call := by
  obtain ⟨fid, fsubsts, fabi⟩ := func
  simp only at habi
  have main : ∀ (hh : eval_terminator ctx s
      (.Call ⟨fid, fsubsts, fabi⟩ args none) = .ok (s', tgt)),
      (fabi = Abi.Rust ∨ fabi = Abi.RustCall) →
      ∃ nf, s'.stack = nf :: s.stack ∧ nf.return_ptr = none
        ∧ nf.next_block = START_BLOCK ∧ tgt = .Call := by
    intro hh hab
    rcases hab with rfl | rfl <;>
    · simp only [eval_terminator] at hh
      split at hh
      · exact absurd hh (by simp)
      · rename_i s1 srcs hargs
        split at hh
        · exact absurd hh (by simp)
        · rename_i s2 srcs2 hflat
          split at hh
          · exact absurd hh (by simp)
          · rename_i s3 hpush
            split at hh
            · exact absurd hh (by simp)
            · rename_i s4 hcopy
              simp at hh
              obtain ⟨rfl, rfl⟩ := hh
              obtain ⟨nf, hst, hmir, hnb, hrp, hsub, hmem⟩ := push_stack_frame_ok hpush
              obtain ⟨hc1, hc2⟩ := copy_args_stacks _ _ _ hcopy
              obtain ⟨ha1, ha2⟩ := eval_arg_srcs_stacks hargs
              obtain ⟨hf1, hf2⟩ := rust_call_flatten_stacks hflat
              refine ⟨nf, ?_, hrp, hnb, rfl⟩
              rw [hc1, hst]
              show nf :: s2.stack = nf :: s.stack
              rw [hf1, ha1]
  exact main h habi

/-- Witness for C10: a concrete diverging `Rust`-ABI call pushes a
frame with no return pointer and leaves the caller frame unchanged. -/
theorem diverging_call_pushes_none_witness :
    ∃ nf,
      (⟨Memory.new,
        [⟨⟨[⟨[], .Return⟩], [], [], [], none⟩, 0, none, [], 0, 0⟩,
         ⟨⟨[⟨[], .Return⟩], [], [], [], none⟩, 0, none, [], 0, 0⟩],
        [⟨[]⟩]⟩ : InterpState).stack
        = nf :: (⟨Memory.new,
            [⟨⟨[⟨[], .Return⟩], [], [], [], none⟩, 0, none, [], 0, 0⟩],
            []⟩ : InterpState).stack
      ∧ nf.return_ptr = none ∧ nf.next_block = START_BLOCK
      ∧ TerminatorTarget.Call = TerminatorTarget.Call :=
  diverging_call_pushes_none
    ⟨fun _ => ⟨[⟨[], .Return⟩], [], [], [], none⟩, fun _ => "x"⟩
    ⟨Memory.new, [⟨⟨[⟨[], .Return⟩], [], [], [], none⟩, 0, none, [], 0, 0⟩], []⟩
    ⟨0, ⟨[]⟩, Abi.Rust⟩ []
    ⟨Memory.new,
      [⟨⟨[⟨[], .Return⟩], [], [], [], none⟩, 0, none, [], 0, 0⟩,
       ⟨⟨[⟨[], .Return⟩], [], [], [], none⟩, 0, none, [], 0, 0⟩],
      [⟨[]⟩]⟩
    .Call (Or.inl rfl) rfl

theorem rust_call_effect {ctx : Ctx} {s : InterpState} {func : FnDefTy}
    {args : List Operand} {destination : Option (Lvalue × Nat)}
    {s' : InterpState} {tgt : TerminatorTarget}
    (habi : func.abi = Abi.Rust ∨ func.abi = Abi.RustCall)
    (h : eval_terminator ctx s (.Call func args destination) = .ok (s', tgt)) :
    tgt = .Call ∧ s'.stack.length = s.stack.length + 1
      ∧ s'.substs_stack.length = s.substs_stack.length + 1 := by
  obtain ⟨fid, fsubsts, fabi⟩ := func
  simp only at habi
  cases destination with
  | none =>
    rcases habi with rfl | rfl <;>
    · simp only [eval_terminator] at h
      split at h
      · exact absurd h (by simp)
      · rename_i s1 srcs hargs
        split at h
        · exact absurd h (by simp)
        · rename_i s2 srcs2 hflat
          split at h
          · exact absurd h (by simp)
          · rename_i s3 hpush
            split at h
            · exact absurd h (by simp)
            · rename_i s4 hcopy
              simp at h
              obtain ⟨rfl, rfl⟩ := h
              obtain ⟨nf, hst, -, -, -, hsub, -⟩ := push_stack_frame_ok hpush
              obtain ⟨hc1, hc2⟩ := copy_args_stacks _ _ _ hcopy
              obtain ⟨ha1, ha2⟩ := eval_arg_srcs_stacks hargs
              obtain ⟨hf1, hf2⟩ := rust_call_flatten_stacks hflat
              refine ⟨rfl, ?_, ?_⟩
              · rw [hc1, hst]
                show s2.stack.length + 1 = s.stack.length + 1
                rw [hf1, ha1]
              · rw [hc2, hsub]
                show (fsubsts :: s2.substs_stack).length = s.substs_stack.length + 1
                rw [List.length_cons, hf2, ha2]
  | some dl =>
    obtain ⟨lv, target⟩ := dl
    rcases habi with rfl | rfl <;>
    · simp only [eval_terminator] at h
      split at h
      · exact absurd h (by simp)
      · rename_i sM rp hsnb
        split at hsnb
        · exact absurd hsnb (by simp)
        · rename_i s0 hset
          split at hsnb
          · exact absurd hsnb (by simp)
          · rename_i p hlv
            simp at hsnb
            obtain ⟨rfl, rfl⟩ := hsnb
            obtain ⟨f, rest, hs, hs0, hsub0, hmem0⟩ := set_next_block_ok hset
            have hlen0 : s0.stack.length = s.stack.length := by rw [hs0, hs]; simp
            split at h
            · exact absurd h (by simp)
            · rename_i s1 srcs hargs
              split at h
              · exact absurd h (by simp)
              · rename_i s2 srcs2 hflat
                split at h
                · exact absurd h (by simp)
                · rename_i s3 hpush
                  split at h
                  · exact absurd h (by simp)
                  · rename_i s4 hcopy
                    simp at h
                    obtain ⟨rfl, rfl⟩ := h
                    obtain ⟨nf, hst, -, -, -, hsub, -⟩ := push_stack_frame_ok hpush
                    obtain ⟨hc1, hc2⟩ := copy_args_stacks _ _ _ hcopy
                    obtain ⟨ha1, ha2⟩ := eval_arg_srcs_stacks hargs
                    obtain ⟨hf1, hf2⟩ := rust_call_flatten_stacks hflat
                    refine ⟨rfl, ?_, ?_⟩
                    · rw [hc1, hst]
                      show s2.stack.length + 1 = s.stack.length + 1
                      rw [hf1, ha1, hlen0]
                    · rw [hc2, hsub]
                      show (fsubsts :: s2.substs_stack).length
                        = s.substs_stack.length + 1
                      rw [List.length_cons, hf2, ha2, hsub0]

theorem eval_assignment_stacks {s : InterpState} {lvalue : Lvalue} {rvalue : Rvalue}
    {s1 : InterpState} (h : eval_assignment s lvalue rvalue = .ok s1) :
    s1.stack = s.stack ∧ s1.substs_stack = s.substs_stack := by
  cases rvalue with
  | Use operand =>
    simp only [eval_assignment] at h
    split at h
    · exact absurd h (by simp)
    · split at h
      · exact absurd h (by simp)
      · split at h
        · exact absurd h (by simp)
        · rename_i s2 src heq
          obtain ⟨m2, rfl⟩ := eval_operand_memory heq
          split at h
          · exact absurd h (by simp)
          · simp at h
            subst h
            exact ⟨rfl, rfl⟩
  | Ref lv =>
    simp only [eval_assignment] at h
    split at h
    · exact absurd h (by simp)
    · split at h
      · exact absurd h (by simp)
      · split at h
        · exact absurd h (by simp)
        · split at h
          · exact absurd h (by simp)
          · simp at h
            subst h
            exact ⟨rfl, rfl⟩
  | Box ty =>
    simp only [eval_assignment] at h
    split at h
    · exact absurd h (by simp)
    · split at h
      · exact absurd h (by simp)
      · split at h
        · exact absurd h (by simp)
        · simp at h
          subst h
          exact ⟨rfl, rfl⟩

theorem exec_stmts_stacks {stmts : List Statement} :
    ∀ {s s1 : InterpState}, exec_stmts s stmts = .ok s1 →
    s1.stack = s.stack ∧ s1.substs_stack = s.substs_stack := by
  induction stmts with
  | nil =>
    intro s s1 h
    simp only [exec_stmts] at h
    simp at h
    subst h
    exact ⟨rfl, rfl⟩
  | cons stmt rest ih =>
    intro s s1 h
    simp only [exec_stmts] at h
    split at h
    · exact absurd h (by simp)
    · rename_i s2 heq
      obtain ⟨h1, h2⟩ := eval_assignment_stacks heq
      obtain ⟨h3, h4⟩ := ih h
      exact ⟨h3.trans h1, h4.trans h2⟩

theorem eval_terminator_aligned {ctx : Ctx} {s : InterpState} {term : Terminator}
    {s' : InterpState} {tgt : TerminatorTarget}
    (h : eval_terminator ctx s term = .ok (s', tgt))
    (hal : s.stack.length = s.substs_stack.length + 1) :
    s'.stack.length = s'.substs_stack.length + 1 := by
  cases term with
  | Return =>
    simp only [eval_terminator] at h
    simp at h
    obtain ⟨rfl, -⟩ := h
    exact hal
  | Goto target =>
    simp only [eval_terminator] at h
    simp at h
    obtain ⟨rfl, -⟩ := h
    exact hal
  | Drop target =>
    simp only [eval_terminator] at h
    simp at h
    obtain ⟨rfl, -⟩ := h
    exact hal
  | Resume =>
    simp only [eval_terminator] at h
    exact absurd h (by simp)
  | If cond then_target else_target =>
    simp only [eval_terminator] at h
    split at h
    · exact absurd h (by simp)
    · rename_i s2 cond_ptr heq
      obtain ⟨m2, rfl⟩ := eval_operand_memory heq
      split at h
      · exact absurd h (by simp)
      · simp at h
        obtain ⟨rfl, -⟩ := h
        exact hal
  | SwitchInt discr values targets =>
    simp only [eval_terminator] at h
    split at h
    · exact absurd h (by simp)
    · split at h
      · exact absurd h (by simp)
      · split at h
        · exact absurd h (by simp)
        · split at h
          · exact absurd h (by simp)
          · split at h
            · exact absurd h (by simp)
            · rename_i m tb hloop
              simp at h
              obtain ⟨rfl, -⟩ := h
              exact hal
  | Switch discr targets =>
    simp only [eval_terminator] at h
    split at h
    · exact absurd h (by simp)
    · split at h
      · exact absurd h (by simp)
      · split at h
        · split at h
          · exact absurd h (by simp)
          · split at h
            · exact absurd h (by simp)
            · simp at h
              obtain ⟨rfl, -⟩ := h
              exact hal
        · exact absurd h (by simp)
  | Call func args destination =>
    obtain ⟨fid, fsubsts, fabi⟩ := func
    cases fabi with
    | RustIntrinsic =>
      obtain ⟨-, hlen, hsub, -, -, -⟩ :=
        intrinsic_terminator_effect ctx s ⟨fid, fsubsts, .RustIntrinsic⟩ args destination
          s' tgt rfl h
      rw [hlen, hsub]
      exact hal
    | Rust =>
      obtain ⟨-, h1, h2⟩ := rust_call_effect (Or.inl rfl) h
      omega
    | RustCall =>
      obtain ⟨-, h1, h2⟩ := rust_call_effect (Or.inr rfl) h
      omega
    | C =>
      cases destination with
      | none =>
        simp only [eval_terminator] at h
        exact absurd h (by simp)
      | some dl =>
        obtain ⟨lv, target⟩ := dl
        simp only [eval_terminator] at h
        split at h
        · exact absurd h (by simp)
        · exact absurd h (by simp)

theorem pop_stack_frame_ok {s s1 : InterpState} (h : pop_stack_frame s = .ok s1) :
    ∃ f rest, s.stack = f :: rest ∧ s1.stack = rest
      ∧ s1.substs_stack = s.substs_stack ∧ s1.memory = s.memory := by
  simp only [pop_stack_frame] at h
  split at h
  · rename_i f rest heq
    simp at h
    subst h
    exact ⟨f, rest, heq, rfl, rfl, rfl⟩
  · exact absurd h (by simp)

theorem run_inner_aligned {ctx : Ctx} : ∀ (fuel : Nat) (s : InterpState) (b : Nat)
    (s1 : InterpState) (tgt : TerminatorTarget),
    run_inner ctx fuel s b = .ok (s1, tgt) →
    s.stack.length = s.substs_stack.length + 1 →
    s1.stack.length = s1.substs_stack.length + 1 := by
  intro fuel
  induction fuel with
  | zero =>
    intro s b s1 tgt h hal
    simp only [run_inner] at h
    exact absurd h (by simp)
  | succ fuel ih =>
    intro s b s1 tgt h hal
    simp only [run_inner] at h
    split at h
    · exact absurd h (by simp)
    · rename_i frame hcf
      split at h
      · exact absurd h (by simp)
      · rename_i bd hbd
        split at h
        · exact absurd h (by simp)
        · rename_i s2 hstmts
          split at h
          · exact absurd h (by simp)
          · rename_i s3 tgt3 hterm
            obtain ⟨he1, he2⟩ := exec_stmts_stacks hstmts
            have hal2 : s2.stack.length = s2.substs_stack.length + 1 := by
              rw [he1, he2]; exact hal
            have hal3 := eval_terminator_aligned hterm hal2
            split at h
            · exact ih _ _ _ _ h hal3
            · simp at h
              obtain ⟨rfl, rfl⟩ := h
              exact hal3

theorem run_lockstep {ctx : Ctx} : ∀ (fuel : Nat) (s s1 : InterpState),
    run ctx fuel s = .ok s1 →
    (s.stack.length = s.substs_stack.length + 1 ∨ (s.stack = [] ∧ s.substs_stack = [])) →
    s1.stack = [] ∧ s1.substs_stack = [] := by
  intro fuel
  induction fuel with
  | zero =>
    intro s s1 h hinv
    simp only [run] at h
    exact absurd h (by simp)
  | succ fuel ih =>
    intro s s1 h hinv
    simp only [run] at h
    split at h
    · rename_i hemp
      simp at h
      subst h
      simp [List.isEmpty_iff] at hemp
      rcases hinv with hal | ⟨h1, h2⟩
      · rw [hemp] at hal
        simp at hal
      · exact ⟨h1, h2⟩
    · rename_i hemp
      simp [List.isEmpty_iff] at hemp
      have hal : s.stack.length = s.substs_stack.length + 1 := by
        rcases hinv with hal | ⟨h1, h2⟩
        · exact hal
        · exact absurd h1 hemp
      split at h
      · exact absurd h (by simp)
      · rename_i frame hcf
        split at h
        · exact absurd h (by simp)
        · rename_i s2 tgt hri
          have hal2 := run_inner_aligned fuel s frame.next_block s2 tgt hri hal
          split at h
          · split at h
            · exact absurd h (by simp)
            · rename_i s3 hpop
              obtain ⟨f, rest, hs2, hs3, hsub3, hmem3⟩ := pop_stack_frame_ok hpop
              apply ih _ _ h
              rw [hs2] at hal2
              simp at hal2
              cases hsl : s2.substs_stack with
              | nil =>
                refine Or.inr ⟨?_, ?_⟩
                · rw [hs3]
                  rw [hsl] at hal2
                  simpa using List.length_eq_zero.mp (by simpa using hal2)
                · show s3.substs_stack.tail = []
                  rw [hsub3, hsl]
                  rfl
              | cons x xs =>
                refine Or.inl ?_
                show s3.stack.length = s3.substs_stack.tail.length + 1
                rw [hs3, hsub3, hsl]
                rw [hsl] at hal2
                simpa using hal2
          · exact ih _ _ h (Or.inl hal2)

/-- C7 counterexample: the driver pushes the entry frame without
pushing a matching substitution entry (`interpret_start_points` calls
`push_stack_frame` but never touches `substs_stack`), so immediately
after driver setup the two stacks have lengths 1 and 0 — not equal
lengths as the claim states. -/
theorem substs_stack_lockstep_counterexample :
    driver_setup ⟨[⟨[], .Return⟩], [], [], [], none⟩
      = .ok ⟨Memory.new, [⟨⟨[⟨[], .Return⟩], [], [], [], none⟩, 0, none, [], 0, 0⟩], []⟩
    ∧ ([⟨⟨[⟨[], .Return⟩], [], [], [], none⟩, 0, none, [], 0, 0⟩] : List Frame).length
      ≠ ([] : List Substs).length :=
  ⟨rfl, by decide⟩

/-- C7 (amended): the call stack runs one entry ahead of the
substitution stack, not in lockstep of equal lengths.  The driver's
entry frame has *no* matching substitution entry (lengths are 1 and 0
after setup); every successful terminator preserves the relation
`stack.length = substs_stack.length + 1`; every successful
non-intrinsic call pushes exactly one entry on each stack; and from
any state satisfying the relation, a completed `run` ends with both
stacks empty (each `Return` pops one frame and, when one exists, one
substitution entry; the entry frame's return pops a frame while the
substitution pop is a no-op on the empty stack). -/
theorem substs_stack_lockstep (mir0 : Mir) (ctx : Ctx) :
    (∀ s, driver_setup mir0 = .ok s → s.stack.length = 1 ∧ s.substs_stack.length = 0)
    ∧ (∀ s term s' tgt, eval_terminator ctx s term = .ok (s', tgt) →
        s.stack.length = s.substs_stack.length + 1 →
        s'.stack.length = s'.substs_stack.length + 1)
    ∧ (∀ s func args destination s' tgt,
        (func.abi = Abi.Rust ∨ func.abi = Abi.RustCall) →
        eval_terminator ctx s (.Call func args destination) = .ok (s', tgt) →
        s'.stack.length = s.stack.length + 1
          ∧ s'.substs_stack.length = s.substs_stack.length + 1)
    ∧ (∀ fuel s s', run ctx fuel s = .ok s' →
        s.stack.length = s.substs_stack.length + 1 →
        s'.stack = [] ∧ s'.substs_stack = []) := by
  refine ⟨?_, ?_, ?_, ?_⟩
  · intro s h
    simp only [driver_setup] at h
    obtain ⟨nf, hst, -, -, -, hsub, -⟩ := push_stack_frame_ok h
    constructor
    · rw [hst]; rfl
    · rw [hsub]; rfl
  · exact fun s term s' tgt h hal => eval_terminator_aligned h hal
  · exact fun s func args destination s' tgt habi h => (rust_call_effect habi h).2
  · exact fun fuel s s' h hal => run_lockstep fuel s s' h (Or.inl hal)

/-- Witness for the amended C7: a concrete one-frame program runs to
completion with both stacks empty. -/
theorem substs_stack_lockstep_witness :
    ∃ s', run ⟨fun _ => ⟨[⟨[], .Return⟩], [], [], [], none⟩, fun _ => "x"⟩ 3
        ⟨Memory.new, [⟨⟨[⟨[], .Return⟩], [], [], [], none⟩, 0, none, [], 0, 0⟩], []⟩
      = .ok s' ∧ s'.stack = [] ∧ s'.substs_stack = [] :=
  ⟨⟨Memory.new, [], []⟩, rfl,
    (substs_stack_lockstep ⟨[⟨[], .Return⟩], [], [], [], none⟩
      ⟨fun _ => ⟨[⟨[], .Return⟩], [], [], [], none⟩, fun _ => "x"⟩).2.2.2 3
      ⟨Memory.new, [⟨⟨[⟨[], .Return⟩], [], [], [], none⟩, 0, none, [], 0, 0⟩], []⟩
      ⟨Memory.new, [], []⟩ rfl rfl⟩

/-- C8 (code bug): for string, byte-string, float and character
constants, and for item-reference literals, operand evaluation does
*not* return an `EvalError.Unimplemented` error result — the code hits
an `unimplemented!()` / `panic!` macro, i.e. it panics, although the
spec reserves panics for the interpreter's own bugs and requires these
interpretee shapes to fail with the `Unimplemented` error kind. -/
theorem unsupported_constants_panic (m : Memory) (s : InterpState) (ty : Ty) :
    const_to_ptr m .Str = .error (.panicked "not implemented")
    ∧ const_to_ptr m .ByteStr = .error (.panicked "not implemented")
    ∧ const_to_ptr m .Float = .error (.panicked "not implemented")
    ∧ const_to_ptr m .Char = .error (.panicked "not implemented")
    ∧ eval_operand_and_repr s (.Constant ty .Item)
        = .error (.panicked "cannot handle item literal") :=
  ⟨rfl, rfl, rfl, rfl, rfl⟩

/-- C6: a successful `Call` with the `RustCall` ABI and non-empty
arguments requires the last argument's layout to be an aggregate with
discriminant size 0 and exactly one variant (`[fields]`), and the
argument sources handed to the callee are the evaluated earlier
arguments (`srcs.dropLast`) followed by one source per field of that
aggregate — at the last argument's pointer plus the field's offset,
with the field's size — each copied into the callee local of the same
index (`copy_args … 0`). -/
theorem rust_call_flattens_last_argument (ctx : Ctx) (s : InterpState) (func : FnDefTy)
    (args : List Operand) (destination : Option (Lvalue × Nat))
    (s' : InterpState) (tgt : TerminatorTarget)
    (habi : func.abi = Abi.RustCall)
    (hne : args.isEmpty = false)
    (h : eval_terminator ctx s (.Call func args destination) = .ok (s', tgt)) :
    ∃ s0 rp s1 srcs last_arg s2 last_src sz fields s3,
      s0.stack.length = s.stack.length
      ∧ s0.substs_stack = s.substs_stack
      ∧ eval_arg_srcs s0 args = .ok (s1, srcs)
      ∧ args.getLast? = some last_arg
      ∧ eval_operand_and_repr s1 last_arg = .ok (s2, last_src, .Aggregate 0 sz [fields])
      ∧ push_stack_frame { s2 with substs_stack := func.substs :: s2.substs_stack }
          (ctx.mir_map func.def_id) rp = .ok s3
      ∧ copy_args s3
          (srcs.dropLast ++ fields.map
            (fun field => (last_src.offsetBy (field.offset : Int), field.size))) 0
        = .ok s'
      ∧ tgt = .Call := by
  obtain ⟨fid, fsubsts, fabi⟩ := func
  simp only at habi
  subst habi
  cases destination with
  | none =>
    simp only [eval_terminator] at h
    split at h
    · exact absurd h (by simp)
    · rename_i s1 srcs hargs
      split at h
      · exact absurd h (by simp)
      · rename_i s2f srcs2 hflat
        split at h
        · exact absurd h (by simp)
        · rename_i s3 hpush
          split at h
          · exact absurd h (by simp)
          · rename_i s4 hcopy
            simp at h
            obtain ⟨rfl, rfl⟩ := h
            simp only [rust_call_flatten] at hflat
            rw [if_pos ⟨trivial, hne⟩] at hflat
            split at hflat
            · exact absurd hflat (by simp)
            · rename_i last_arg hlast
              split at hflat
              · exact absurd hflat (by simp)
              · rename_i s2 last_src last_repr heqlast
                split at hflat
                · rename_i sz variants
                  split at hflat
                  · rename_i hlen1
                    split at hflat
                    · exact absurd hflat (by simp)
                    · rename_i fields hvi
                      obtain ⟨a, rfl⟩ := List.length_eq_one.mp hlen1
                      simp [vec_index] at hvi
                      subst hvi
                      simp at hflat
                      obtain ⟨rfl, rfl⟩ := hflat
                      exact ⟨s, none, s1, srcs, last_arg, s2, last_src, sz, a, s3,
                        rfl, rfl, hargs, hlast, heqlast, hpush, hcopy, rfl⟩
                  · exact absurd hflat (by simp)
                · exact absurd hflat (by simp)
  | some dl =>
    obtain ⟨lv, target⟩ := dl
    simp only [eval_terminator] at h
    split at h
    · exact absurd h (by simp)
    · rename_i sM rp hsnb
      split at hsnb
      · exact absurd hsnb (by simp)
      · rename_i s0 hset
        split at hsnb
        · exact absurd hsnb (by simp)
        · rename_i p hlv
          simp at hsnb
          obtain ⟨rfl, rfl⟩ := hsnb
          obtain ⟨f, rest, hs, hs0, hsub0, hmem0⟩ := set_next_block_ok hset
          split at h
          · exact absurd h (by simp)
          · rename_i s1 srcs hargs
            split at h
            · exact absurd h (by simp)
            · rename_i s2f srcs2 hflat
              split at h
              · exact absurd h (by simp)
              · rename_i s3 hpush
                split at h
                · exact absurd h (by simp)
                · rename_i s4 hcopy
                  simp at h
                  obtain ⟨rfl, rfl⟩ := h
                  simp only [rust_call_flatten] at hflat
                  rw [if_pos ⟨trivial, hne⟩] at hflat
                  split at hflat
                  · exact absurd hflat (by simp)
                  · rename_i last_arg hlast
                    split at hflat
                    · exact absurd hflat (by simp)
                    · rename_i s2 last_src last_repr heqlast
                      split at hflat
                      · rename_i sz variants
                        split at hflat
                        · rename_i hlen1
                          split at hflat
                          · exact absurd hflat (by simp)
                          · rename_i fields hvi
                            obtain ⟨a, rfl⟩ := List.length_eq_one.mp hlen1
                            simp [vec_index] at hvi
                            subst hvi
                            simp at hflat
                            obtain ⟨rfl, rfl⟩ := hflat
                            refine ⟨s0, some p, s1, srcs, last_arg, s2, last_src, sz, a, s3,
                              ?_, hsub0, hargs, hlast, heqlast, hpush, hcopy, rfl⟩
                            rw [hs0, hs]
                            simp
                        · exact absurd hflat (by simp)
                      · exact absurd hflat (by simp)

/-- Witness for C6: a concrete `RustCall` call whose single argument is
a one-field tuple of `u8` holding the byte 7; the tuple is flattened
into one per-field source and copied into the callee's first local. -/
theorem rust_call_flattens_last_argument_witness :
    ∃ s0 rp s1 srcs last_arg s2 last_src sz fields s3,
      s0.stack.length = (⟨⟨[⟨[7], []⟩], 8⟩,
          [⟨⟨[⟨[], .Return⟩], [Ty.TyTuple [Ty.TyUint .U8]], [], [], none⟩, 0, none,
            [⟨0, 0⟩], 1, 1⟩], []⟩ : InterpState).stack.length
      ∧ s0.substs_stack = (⟨⟨[⟨[7], []⟩], 8⟩,
          [⟨⟨[⟨[], .Return⟩], [Ty.TyTuple [Ty.TyUint .U8]], [], [], none⟩, 0, none,
            [⟨0, 0⟩], 1, 1⟩], []⟩ : InterpState).substs_stack
      ∧ eval_arg_srcs s0 [.Consume (.Arg 0)] = .ok (s1, srcs)
      ∧ [Operand.Consume (.Arg 0)].getLast? = some last_arg
      ∧ eval_operand_and_repr s1 last_arg = .ok (s2, last_src, .Aggregate 0 sz [fields])
      ∧ push_stack_frame { s2 with substs_stack :=
            (⟨0, ⟨[]⟩, Abi.RustCall⟩ : FnDefTy).substs :: s2.substs_stack }
          ((⟨fun _ => ⟨[⟨[], .Return⟩], [Ty.TyUint .U8], [], [], none⟩, fun _ => "x"⟩
            : Ctx).mir_map (⟨0, ⟨[]⟩, Abi.RustCall⟩ : FnDefTy).def_id) rp = .ok s3
      ∧ copy_args s3 (srcs.dropLast ++ fields.map
          (fun field => (last_src.offsetBy (field.offset : Int), field.size))) 0
        = .ok ⟨⟨[⟨[7], []⟩, ⟨[7], []⟩], 8⟩,
            [⟨⟨[⟨[], .Return⟩], [Ty.TyUint .U8], [], [], none⟩, 0, none, [⟨1, 0⟩], 1, 1⟩,
             ⟨⟨[⟨[], .Return⟩], [Ty.TyTuple [Ty.TyUint .U8]], [], [], none⟩, 0, none,
              [⟨0, 0⟩], 1, 1⟩], [⟨[]⟩]⟩
      ∧ TerminatorTarget.Call = TerminatorTarget.Call :=
  rust_call_flattens_last_argument
    ⟨fun _ => ⟨[⟨[], .Return⟩], [Ty.TyUint .U8], [], [], none⟩, fun _ => "x"⟩
    ⟨⟨[⟨[7], []⟩], 8⟩,
      [⟨⟨[⟨[], .Return⟩], [Ty.TyTuple [Ty.TyUint .U8]], [], [], none⟩, 0, none,
        [⟨0, 0⟩], 1, 1⟩], []⟩
    ⟨0, ⟨[]⟩, Abi.RustCall⟩ [.Consume (.Arg 0)] none
    ⟨⟨[⟨[7], []⟩, ⟨[7], []⟩], 8⟩,
      [⟨⟨[⟨[], .Return⟩], [Ty.TyUint .U8], [], [], none⟩, 0, none, [⟨1, 0⟩], 1, 1⟩,
       ⟨⟨[⟨[], .Return⟩], [Ty.TyTuple [Ty.TyUint .U8]], [], [], none⟩, 0, none,
        [⟨0, 0⟩], 1, 1⟩], [⟨[]⟩]⟩
    .Call rfl rfl rfl

theorem le_encode_length (v n : Nat) : (le_encode v n).length = n := by
  induction n generalizing v with
  | zero => rfl
  | succ n ih => simp [le_encode, ih]

theorem take_le_encode (k : Nat) : ∀ (v n : Nat),
    (le_encode v n).take k = le_encode v (min k n) := by
  induction k with
  | zero => intro v n; simp [le_encode]
  | succ k ih =>
    intro v n
    cases n with
    | zero => simp [le_encode]
    | succ n =>
      simp only [le_encode, List.take_succ_cons, ih, Nat.succ_min_succ]

theorem le_decode_encode (n : Nat) : ∀ v, le_decode (le_encode v n) = v % 256 ^ n := by
  induction n with
  | zero => intro v; simp [le_encode, le_decode, Nat.mod_one]
  | succ n ih =>
    intro v
    simp only [le_encode, le_decode, ih]
    rw [show (256 : Nat) ^ (n + 1) = 256 * 256 ^ n by ring, Nat.mod_mul]

theorem const_integral_eq (m : Memory) (n : Nat) :
    const_to_ptr m (.Integral n)
      = .ok ((⟨(m.alloc_map ++ [(⟨List.replicate 8 0, []⟩ : Allocation)]).set
          m.alloc_map.length (⟨le_encode n 8, []⟩ : Allocation), m.pointer_size⟩ : Memory),
        (⟨m.alloc_map.length, 0⟩ : Pointer)) := by
  simp [const_to_ptr, Memory.allocate, Memory.write_uint, Memory.write_bytes,
    List.get?_concat_length, le_encode_length]

theorem read_uint_after_const {m : Memory} {n : Nat} {m1 : Memory} {p : Pointer}
    {ds val : Nat}
    (hc : const_to_ptr m (.Integral n) = .ok (m1, p))
    (hr : m1.read_uint p ds = .ok val) :
    val = n % 256 ^ ds := by
  rw [const_integral_eq] at hc
  simp at hc
  obtain ⟨rfl, rfl⟩ := hc
  have hget : (m.alloc_map ++ [(⟨le_encode n 8, []⟩ : Allocation)]).get?
      m.alloc_map.length = some (⟨le_encode n 8, []⟩ : Allocation) :=
    List.get?_concat_length _ _
  simp only [Memory.read_uint, Memory.read_bytes] at hr
  rw [hget] at hr
  simp only [List.any_nil, Bool.false_eq_true, if_false] at hr
  rw [le_encode_length] at hr
  split at hr
  · rename_i bs hds
    simp at hr
    split at hds
    · rename_i hle
      simp at hds
      subst hds
      rw [take_le_encode, le_decode_encode] at hr
      have hmin : min ds 8 = ds := by omega
      rw [hmin] at hr
      exact hr.symm
    · exact absurd hds (by simp)
  · exact absurd hr (by simp)

theorem switch_int_loop_integral : ∀ (vals : List Nat) (m : Memory) (ds dv : Nat)
    (targets : List Nat) (idx df : Nat) (m1 : Memory) (t : Nat),
    switch_int_loop m ds dv (vals.map ConstVal.Integral) targets idx df = .ok (m1, t) →
    t = first_match_target dv ds vals targets idx df := by
  intro vals
  induction vals with
  | nil =>
    intro m ds dv targets idx df m1 t h
    simp only [List.map_nil, switch_int_loop] at h
    simp at h
    obtain ⟨-, rfl⟩ := h
    rfl
  | cons n rest ih =>
    intro m ds dv targets idx df m1 t h
    simp only [List.map_cons, switch_int_loop] at h
    split at h
    · exact absurd h (by simp)
    · rename_i m2 ptr hc
      split at h
      · exact absurd h (by simp)
      · rename_i val hr
        have hval : val = n % 256 ^ ds := read_uint_after_const hc hr
        split at h
        · rename_i hdv
          split at h
          · rename_i t0 hvi
            simp at h
            obtain ⟨-, rfl⟩ := h
            simp only [vec_index] at hvi
            rw [first_match_target, if_pos (hval ▸ hdv)]
            split at hvi
            · rename_i x hx
              simp at hvi
              subst hvi
              rw [List.getD_eq_getElem?_getD, ← List.get?_eq_getElem?, hx]
              rfl
            · exact absurd hvi (by simp)
          · exact absurd h (by simp)
        · rename_i hdv
          rw [first_match_target, if_neg (fun hh => hdv (hval ▸ hh))]
          exact ih _ _ _ _ _ _ _ _ h

/-- C4 counterexample: a `SwitchInt` on a `u8` discriminant holding 5,
with the single value constant 261 and targets `[10, 20]`.  The code
materialises 261 as 8 little-endian bytes, re-reads only 1 byte
(`261 % 256 = 5`), finds a match, and jumps to target 10 — while the
claim's plain unsigned equality (`5 = 261` is false) selects the
otherwise target 20. -/
theorem switch_int_plain_equality_counterexample :
    eval_terminator ⟨fun _ => ⟨[], [], [], [], none⟩, fun _ => "x"⟩
        ⟨⟨[⟨[5], []⟩], 8⟩,
          [⟨⟨[⟨[], .Return⟩], [Ty.TyUint .U8], [], [], none⟩, 0, none, [⟨0, 0⟩], 1, 1⟩], []⟩
        (.SwitchInt (.Arg 0) [.Integral 261] [10, 20])
      = .ok (⟨⟨[⟨[5], []⟩, ⟨[5, 1, 0, 0, 0, 0, 0, 0], []⟩], 8⟩,
          [⟨⟨[⟨[], .Return⟩], [Ty.TyUint .U8], [], [], none⟩, 0, none, [⟨0, 0⟩], 1, 1⟩], []⟩,
        .Block 10)
    ∧ plain_match_target 5 [261] [10, 20] 0 20 = 20
    ∧ (10 : Nat) ≠ 20 :=
  ⟨rfl, rfl, by decide⟩

/-- C4 (amended): a successful `SwitchInt` reads an unsigned integer of
the discriminant layout's size from the discriminant lvalue and jumps
to the target of the first value constant that equals it **modulo
`256 ^ discr_size`** (each constant is materialised as 8 little-endian
bytes and re-read at the discriminant's size, truncating it); when no
value matches, it jumps to the last element of `targets`. -/
theorem switch_int_semantics (ctx : Ctx) (s : InterpState) (discr : Lvalue)
    (values : List Nat) (targets : List Nat) (s' : InterpState) (tgt : TerminatorTarget)
    (h : eval_terminator ctx s (.SwitchInt discr (values.map ConstVal.Integral) targets)
        = .ok (s', tgt)) :
    ∃ discr_ptr repr dv df,
      eval_lvalue s discr = .ok discr_ptr
      ∧ lvalue_repr s discr = .ok repr
      ∧ s.memory.read_uint discr_ptr repr.size = .ok dv
      ∧ targets.get? (targets.length - 1) = some df
      ∧ tgt = .Block (first_match_target dv repr.size values targets 0 df) := by
  simp only [eval_terminator] at h
  split at h
  · exact absurd h (by simp)
  · rename_i discr_ptr hlv
    split at h
    · exact absurd h (by simp)
    · rename_i repr hrep
      split at h
      · exact absurd h (by simp)
      · rename_i dv hread
        split at h
        · exact absurd h (by simp)
        · rename_i df hdf
          split at h
          · exact absurd h (by simp)
          · rename_i m tb hloop
            simp at h
            obtain ⟨rfl, rfl⟩ := h
            have hsel := switch_int_loop_integral values s.memory repr.size dv
              targets 0 df m tb hloop
            simp only [vec_index] at hdf
            split at hdf
            · rename_i x hx
              simp at hdf
              subst hdf
              exact ⟨discr_ptr, repr, dv, x, hlv, hrep, hread, hx, by rw [hsel]⟩
            · exact absurd hdf (by simp)

/-- Witness for the amended C4 at the counterexample's input: the
selected target is the one computed by the modular first-match rule. -/
theorem switch_int_semantics_witness :
    ∃ discr_ptr repr dv df,
      eval_lvalue ⟨⟨[⟨[5], []⟩], 8⟩,
          [⟨⟨[⟨[], .Return⟩], [Ty.TyUint .U8], [], [], none⟩, 0, none, [⟨0, 0⟩], 1, 1⟩], []⟩
          (.Arg 0) = .ok discr_ptr
      ∧ lvalue_repr ⟨⟨[⟨[5], []⟩], 8⟩,
          [⟨⟨[⟨[], .Return⟩], [Ty.TyUint .U8], [], [], none⟩, 0, none, [⟨0, 0⟩], 1, 1⟩], []⟩
          (.Arg 0) = .ok repr
      ∧ (⟨[⟨[5], []⟩], 8⟩ : Memory).read_uint discr_ptr repr.size = .ok dv
      ∧ [10, 20].get? ([10, 20].length - 1) = some df
      ∧ TerminatorTarget.Block 10
          = .Block (first_match_target dv repr.size [261] [10, 20] 0 df) :=
  switch_int_semantics ⟨fun _ => ⟨[], [], [], [], none⟩, fun _ => "x"⟩
    ⟨⟨[⟨[5], []⟩], 8⟩,
      [⟨⟨[⟨[], .Return⟩], [Ty.TyUint .U8], [], [], none⟩, 0, none, [⟨0, 0⟩], 1, 1⟩], []⟩
    (.Arg 0) [261] [10, 20]
    ⟨⟨[⟨[5], []⟩, ⟨[5, 1, 0, 0, 0, 0, 0, 0], []⟩], 8⟩,
      [⟨⟨[⟨[], .Return⟩], [Ty.TyUint .U8], [], [], none⟩, 0, none, [⟨0, 0⟩], 1, 1⟩], []⟩
    (.Block 10) rfl

theorem arena_ref_of_get {rctx : ReprCtx} {idx : Nat} {r : Repr}
    (h : rctx.arena.get? idx = some r) : arena_ref rctx idx = r := by
  simp only [arena_ref]
  rw [List.getD_eq_getElem?_getD, ← List.get?_eq_getElem?, h]
  rfl

theorem cache_lookup_coherent (arena : List Repr) :
    ∀ (c : List (Ty × Nat)) (ty : Ty) (idx : Nat),
    (∀ p ∈ c, arena.get? p.2 = some (ty_to_repr p.1)) →
    cache_lookup c ty = some idx → arena.get? idx = some (ty_to_repr ty) := by
  intro c
  induction c with
  | nil => intro ty idx hco h; exact absurd h (by simp [cache_lookup])
  | cons kv rest ih =>
    intro ty idx hco h
    obtain ⟨k, v⟩ := kv
    simp only [cache_lookup] at h
    split at h
    · rename_i hbeq
      simp at h
      have hk := Ty.beq_sound k ty hbeq
      subst hk
      subst h
      exact hco (k, v) (by simp)
    · exact ih ty idx (fun p hp => hco p (by simp [hp])) h

mutual
theorem ty_to_repr_cached_correct (rctx : ReprCtx) (ty : Ty)
    (hco : cache_coherent rctx) :
    cache_coherent (ty_to_repr_cached rctx ty).1
    ∧ (ty_to_repr_cached rctx ty).1.arena.get? (ty_to_repr_cached rctx ty).2
        = some (ty_to_repr ty) := by
  cases hc : cache_lookup rctx.cache ty with
  | some idx =>
    refine ⟨?_, ?_⟩ <;> rw [ty_to_repr_cached.eq_def, hc]
    · exact hco
    · exact cache_lookup_coherent rctx.arena rctx.cache ty idx hco hc
  | none =>
    obtain ⟨hco2, hval⟩ := ty_to_repr_compute_correct rctx ty hco
    refine ⟨?_, ?_⟩ <;> rw [ty_to_repr_cached.eq_def, hc]
    · intro p hp
      simp at hp
      rcases hp with rfl | hp
      · show ((ty_to_repr_compute rctx ty).1.arena ++ [(ty_to_repr_compute rctx ty).2]).get?
            (ty_to_repr_compute rctx ty).1.arena.length = _
        rw [List.get?_concat_length]
        exact congrArg some hval
      · have hprev := hco2 p hp
        have hb : p.2 < (ty_to_repr_compute rctx ty).1.arena.length :=
          (List.get?_eq_some.mp hprev).1
        show ((ty_to_repr_compute rctx ty).1.arena ++ [(ty_to_repr_compute rctx ty).2]).get?
            p.2 = _
        rw [List.get?_append hb]
        exact hprev
    · show ((ty_to_repr_compute rctx ty).1.arena ++ [(ty_to_repr_compute rctx ty).2]).get?
          (ty_to_repr_compute rctx ty).1.arena.length = _
      rw [List.get?_concat_length]
      exact congrArg some hval
termination_by (sizeOf ty, 1)

theorem ty_to_repr_compute_correct (rctx : ReprCtx) (ty : Ty)
    (hco : cache_coherent rctx) :
    cache_coherent (ty_to_repr_compute rctx ty).1
    ∧ (ty_to_repr_compute rctx ty).2 = ty_to_repr ty := by
  cases ty with
  | TyBool =>
    refine ⟨?_, ?_⟩ <;> rw [ty_to_repr_compute.eq_def]
    · exact hco
    · rfl
  | TyInt t =>
    cases t <;> (refine ⟨?_, ?_⟩ <;> rw [ty_to_repr_compute.eq_def])
    case' Is.refine_1 | I8.refine_1 | I16.refine_1 | I32.refine_1 | I64.refine_1 => exact hco
    all_goals rfl
  | TyUint t =>
    cases t <;> (refine ⟨?_, ?_⟩ <;> rw [ty_to_repr_compute.eq_def])
    case' Us.refine_1 | U8.refine_1 | U16.refine_1 | U32.refine_1 | U64.refine_1 => exact hco
    all_goals rfl
  | TyRef pointee_sized =>
    refine ⟨?_, ?_⟩ <;> rw [ty_to_repr_compute.eq_def]
    · exact hco
    · rfl
  | TyTuple fields =>
    obtain ⟨h1, h2⟩ := ty_sizes_cached_correct rctx fields hco
    refine ⟨?_, ?_⟩ <;> rw [ty_to_repr_compute.eq_def]
    · exact h1
    · show make_aggregate_repr [(ty_sizes_cached rctx fields).2] = ty_to_repr (.TyTuple fields)
      rw [h2]; rfl
  | TyClosure upvar_tys =>
    obtain ⟨h1, h2⟩ := ty_sizes_cached_correct rctx upvar_tys hco
    refine ⟨?_, ?_⟩ <;> rw [ty_to_repr_compute.eq_def]
    · exact h1
    · show make_aggregate_repr [(ty_sizes_cached rctx upvar_tys).2]
        = ty_to_repr (.TyClosure upvar_tys)
      rw [h2]; rfl
  | TyAdt variants =>
    obtain ⟨h1, h2⟩ := variant_field_sizes_cached_correct rctx variants hco
    refine ⟨?_, ?_⟩ <;> rw [ty_to_repr_compute.eq_def]
    · exact h1
    · show make_aggregate_repr (variant_field_sizes_cached rctx variants).2
        = ty_to_repr (.TyAdt variants)
      rw [h2]; rfl
  | TyArray elem length =>
    obtain ⟨h1, h2⟩ := ty_to_repr_cached_correct rctx elem hco
    refine ⟨?_, ?_⟩ <;> rw [ty_to_repr_compute.eq_def]
    · exact h1
    · show Repr.Array
          (arena_ref (ty_to_repr_cached rctx elem).1 (ty_to_repr_cached rctx elem).2).size
          length
        = ty_to_repr (.TyArray elem length)
      rw [arena_ref_of_get h2]; rfl
termination_by (sizeOf ty, 0)

theorem ty_sizes_cached_correct (rctx : ReprCtx) (ts : List Ty)
    (hco : cache_coherent rctx) :
    cache_coherent (ty_sizes_cached rctx ts).1
    ∧ (ty_sizes_cached rctx ts).2 = ty_sizes ts := by
  cases ts with
  | nil =>
    refine ⟨?_, ?_⟩ <;> rw [ty_sizes_cached.eq_def]
    · exact hco
    · rfl
  | cons t rest =>
    obtain ⟨h1, h2⟩ := ty_to_repr_cached_correct rctx t hco
    obtain ⟨h3, h4⟩ := ty_sizes_cached_correct (ty_to_repr_cached rctx t).1 rest h1
    refine ⟨?_, ?_⟩ <;> rw [ty_sizes_cached.eq_def]
    · exact h3
    · show (arena_ref (ty_to_repr_cached rctx t).1 (ty_to_repr_cached rctx t).2).size
          :: (ty_sizes_cached (ty_to_repr_cached rctx t).1 rest).2
        = ty_sizes (t :: rest)
      rw [arena_ref_of_get h2, h4]; rfl
termination_by (sizeOf ts, 2)

theorem variant_field_sizes_cached_correct (rctx : ReprCtx) (vs : List (List Ty))
    (hco : cache_coherent rctx) :
    cache_coherent (variant_field_sizes_cached rctx vs).1
    ∧ (variant_field_sizes_cached rctx vs).2 = variant_field_sizes vs := by
  cases vs with
  | nil =>
    refine ⟨?_, ?_⟩ <;> rw [variant_field_sizes_cached.eq_def]
    · exact hco
    · rfl
  | cons v rest =>
    obtain ⟨h1, h2⟩ := ty_sizes_cached_correct rctx v hco
    obtain ⟨h3, h4⟩ := variant_field_sizes_cached_correct (ty_sizes_cached rctx v).1 rest h1
    refine ⟨?_, ?_⟩ <;> rw [variant_field_sizes_cached.eq_def]
    · exact h3
    · show (ty_sizes_cached rctx v).2
          :: (variant_field_sizes_cached (ty_sizes_cached rctx v).1 rest).2
        = variant_field_sizes (v :: rest)
      rw [h2, h4]; rfl
termination_by (sizeOf vs, 2)
end

theorem cache_coherent_empty : cache_coherent ⟨[], []⟩ := by
  intro p hp
  exact absurd hp (List.not_mem_nil p)

end Miri
